import Mathlib

/-!
Verification of the text-rewrite scripts fix_analysis.py and
fix_super_parameters.py.

The two scripts walk the lib directory tree, apply an ordered list of
textual substitution rules (Python str.replace and re.sub) to each
selected .dart file, and write a file back exactly when the transformed
content differs from the original.

Modelling conventions (shallow embedding):
* file content is a list of characters (List Char);
* Python str.replace(a, b) is pyReplace: the left-to-right scan that
  replaces every non-overlapping occurrence of a by b;
* each re.sub call is embedded as a position-wise matcher returning
  the replacement text and the rest of the input after the match, and a
  scan (scanSub) that mirrors the left-to-right, non-overlapping
  behaviour of re.sub: at each position try the pattern; on a match emit
  the expanded template and continue after the match, otherwise emit one
  character and move on.  All the patterns in the source consist of
  literals and character classes whose greedy runs are forced (every
  quantified class is disjoint from the character that must follow it),
  so the backtracking search of the regex engine reduces to the
  deterministic maximal-run scan implemented here; the one non-forced
  spot, the group (\s*(?:[^}]+\n)*\s*\}) of pattern 2, is resolved in
  the comment at matchP2At.
* character classes are modelled at their ASCII meaning (the sources
  are ASCII Dart files): \s as space, tab, newline, carriage return,
  vertical tab and form feed; \w as [a-zA-Z0-9_].
-/

/-- Python \s character class, at its ASCII meaning. -/
def isPySpace (c : Char) : Bool :=
  c = ' ' || c = '\t' || c = '\n' || c = '\r' || c = '\x0b' || c = '\x0c'

/-- Python \w character class, at its ASCII meaning. -/
def isPyWord (c : Char) : Bool :=
  c.isAlphanum || c = '_'

/-- Identifier head class [a-zA-Z_] of the interpolation pattern. -/
def isIdentStart (c : Char) : Bool :=
  c.isAlpha || c = '_'

/-- Identifier tail class [a-zA-Z0-9_] of the interpolation pattern. -/
def isIdentChar (c : Char) : Bool :=
  c.isAlphanum || c = '_'

/-- Consume an exact literal, returning the rest of the input. -/
def eatL (lit s : List Char) : Option (List Char) :=
  if lit.isPrefixOf s then some (s.drop lit.length) else none

/-- Fuelled worker for pyReplace; one unit of fuel per scan step, and
every step consumes at least one input character when the pattern is
nonempty, so fuel equal to the input length never runs out. -/
def pyReplaceGo (a b : List Char) : Nat → List Char → List Char
  | 0, s => s
  | _ + 1, [] => []
  | n + 1, c :: t =>
    if a ≠ [] ∧ a <+: (c :: t) then
      b ++ pyReplaceGo a b n ((c :: t).drop a.length)
    else
      c :: pyReplaceGo a b n t

/-- Python str.replace a b: replace every non-overlapping occurrence of
a by b, scanning left to right.  (The scripts only call it with a
nonempty pattern; the emptiness guard merely keeps the scan moving.) -/
def pyReplace (a b s : List Char) : List Char :=
  pyReplaceGo a b s.length s

/-- Fuelled worker for countOcc, the same scan as pyReplaceGo. -/
def countOccGo (a : List Char) : Nat → List Char → Nat
  | 0, _ => 0
  | _ + 1, [] => 0
  | n + 1, c :: t =>
    if a ≠ [] ∧ a <+: (c :: t) then
      1 + countOccGo a n ((c :: t).drop a.length)
    else
      countOccGo a n t

/-- Number of non-overlapping occurrences of a in s, counted by the
same left-to-right scan str.replace uses. -/
def countOcc (a s : List Char) : Nat :=
  countOccGo a s.length s

theorem pyReplaceGo_fuel (a b : List Char) :
    ∀ n (s : List Char), s.length ≤ n → pyReplaceGo a b n s = pyReplaceGo a b s.length s := by
  intro n
  induction n using Nat.strong_induction_on with
  | _ n ih =>
    intro s hs
    cases n with
    | zero =>
      cases s with
      | nil => rfl
      | cons c t => simp at hs
    | succ m =>
      cases s with
      | nil => rfl
      | cons c t =>
        have hts : t.length ≤ m := by simpa using hs
        simp only [List.length_cons, pyReplaceGo]
        by_cases h : a ≠ [] ∧ a <+: (c :: t)
        · rw [if_pos h, if_pos h]
          have ha : 0 < a.length := List.length_pos.mpr h.1
          have hdt : ((c :: t).drop a.length).length ≤ t.length := by
            simp only [List.length_drop, List.length_cons]; omega
          rw [ih m (Nat.lt_succ_self m) _ (le_trans hdt hts),
              ih t.length (Nat.lt_succ_of_le hts) _ hdt]
        · rw [if_neg h, if_neg h]
          rw [ih m (Nat.lt_succ_self m) t hts]

theorem countOccGo_fuel (a : List Char) :
    ∀ n (s : List Char), s.length ≤ n → countOccGo a n s = countOccGo a s.length s := by
  intro n
  induction n using Nat.strong_induction_on with
  | _ n ih =>
    intro s hs
    cases n with
    | zero =>
      cases s with
      | nil => rfl
      | cons c t => simp at hs
    | succ m =>
      cases s with
      | nil => rfl
      | cons c t =>
        have hts : t.length ≤ m := by simpa using hs
        simp only [List.length_cons, countOccGo]
        by_cases h : a ≠ [] ∧ a <+: (c :: t)
        · rw [if_pos h, if_pos h]
          have ha : 0 < a.length := List.length_pos.mpr h.1
          have hdt : ((c :: t).drop a.length).length ≤ t.length := by
            simp only [List.length_drop, List.length_cons]; omega
          rw [ih m (Nat.lt_succ_self m) _ (le_trans hdt hts),
              ih t.length (Nat.lt_succ_of_le hts) _ hdt]
        · rw [if_neg h, if_neg h]
          rw [ih m (Nat.lt_succ_self m) t hts]

/-- One-step unfolding of the str.replace scan. -/
theorem pyReplace_cons (a b : List Char) (c : Char) (t : List Char) :
    pyReplace a b (c :: t) =
      if a ≠ [] ∧ a <+: (c :: t) then b ++ pyReplace a b ((c :: t).drop a.length)
      else c :: pyReplace a b t := by
  show pyReplaceGo a b (c :: t).length (c :: t) = _
  simp only [List.length_cons, pyReplaceGo]
  by_cases h : a ≠ [] ∧ a <+: (c :: t)
  · rw [if_pos h, if_pos h]
    have ha : 0 < a.length := List.length_pos.mpr h.1
    have hdt : ((c :: t).drop a.length).length ≤ t.length := by
      simp only [List.length_drop, List.length_cons]; omega
    rw [pyReplaceGo_fuel a b t.length _ hdt]
    rfl
  · rw [if_neg h, if_neg h]
    rfl

/-- One-step unfolding of the occurrence count. -/
theorem countOcc_cons (a : List Char) (c : Char) (t : List Char) :
    countOcc a (c :: t) =
      if a ≠ [] ∧ a <+: (c :: t) then 1 + countOcc a ((c :: t).drop a.length)
      else countOcc a t := by
  show countOccGo a (c :: t).length (c :: t) = _
  simp only [List.length_cons, countOccGo]
  by_cases h : a ≠ [] ∧ a <+: (c :: t)
  · rw [if_pos h, if_pos h]
    have ha : 0 < a.length := List.length_pos.mpr h.1
    have hdt : ((c :: t).drop a.length).length ≤ t.length := by
      simp only [List.length_drop, List.length_cons]; omega
    rw [countOccGo_fuel a t.length _ hdt]
    rfl
  · rw [if_neg h, if_neg h]
    rfl


/-- Matcher for the pattern \.withOpacity\(([^)]+)\) with template
.withValues(alpha: \1), anchored at the start of s.  The greedy run of
[^)]+ stops exactly at the first closing parenthesis, and the match
requires that parenthesis to follow, so the regex search is this
deterministic scan. -/
def matchWithOpacityAt (s : List Char) : Option (List Char × List Char) :=
  match eatL ".withOpacity(".toList s with
  | none => none
  | some r1 =>
    let inner := r1.takeWhile (fun c => c ≠ ')')
    let r2 := r1.drop inner.length
    if inner.isEmpty then none
    else
      match eatL [')'] r2 with
      | none => none
      | some r3 => some (".withValues(alpha: ".toList ++ inner ++ [')'], r3)

/-- Matcher for the pattern \$\{([a-zA-Z_][a-zA-Z0-9_]*)\} with
template $\1, anchored at the start of s.  The greedy identifier run
stops at the first character outside the class, and the closing brace
must follow it; backtracked shorter runs would put an identifier
character where the brace is required, so the scan is deterministic. -/
def matchInterpAt (s : List Char) : Option (List Char × List Char) :=
  match eatL ['$', '\x7b'] s with
  | none => none
  | some r1 =>
    match r1 with
    | [] => none
    | c0 :: r2 =>
      if isIdentStart c0 then
        let run := r2.takeWhile isIdentChar
        let r3 := r2.drop run.length
        match eatL ['\x7d'] r3 with
        | none => none
        | some r4 => some ('$' :: c0 :: run, r4)
      else none

/-- One step of the re.sub scan: n is fuel (one unit per scanned
position; every match consumes at least one character, so fuel equal to
the length of the input never runs out). -/
def scanSub (m : List Char → Option (List Char × List Char)) : Nat → List Char → List Char
  | 0, s => s
  | _ + 1, [] => []
  | n + 1, c :: t =>
    match m (c :: t) with
    | some (repl, rest) => repl ++ scanSub m n rest
    | none => c :: scanSub m n t

/-- Global re.sub of the pattern recognised by m. -/
def applySub (m : List Char → Option (List Char × List Char)) (s : List Char) : List Char :=
  scanSub m s.length s

/-- The full ordered rule pipeline of fix_file in fix_analysis.py:
surfaceVariant literal, withOpacity regex, .background and
.onBackground literals, interpolation regex. -/
def fixFileTransform (c : List Char) : List Char :=
  let c1 := pyReplace "surfaceVariant".toList "surfaceContainerHighest".toList c
  let c2 := applySub matchWithOpacityAt c1
  let c3 := pyReplace ".background".toList ".surface".toList c2
  let c4 := pyReplace ".onBackground".toList ".onSurface".toList c3
  applySub matchInterpAt c4

/-- Matcher for pattern 1 (and the textually identical pattern 3) of
fix_super_parameters.py, anchored at the start of s:

  (const\s+\w+\s*\{\s*)required String message(\s*\})\s*:\s*super\(message:\s*message\);

with template \1required super.message\2; .  Every quantified class
(\s+, \w+, \s*) is followed by a character outside the class (the c of
const, the opening brace, the r of required, the closing brace, the
colon, the s of super, the m of message), so the greedy runs are forced
and the match at a position is the following deterministic scan. -/
def matchP1At (s : List Char) : Option (List Char × List Char) :=
  match eatL "const".toList s with
  | none => none
  | some r1 =>
    let (ws1, r2) := r1.span isPySpace
    if ws1.isEmpty then none else
    let (wd, r3) := r2.span isPyWord
    if wd.isEmpty then none else
    let (ws2, r4) := r3.span isPySpace
    match eatL ['\x7b'] r4 with
    | none => none
    | some r5 =>
      let (ws3, r6) := r5.span isPySpace
      match eatL "required String message".toList r6 with
      | none => none
      | some r7 =>
        let (ws4, r8) := r7.span isPySpace
        match eatL ['\x7d'] r8 with
        | none => none
        | some r9 =>
          let (_, r10) := r9.span isPySpace
          match eatL [':'] r10 with
          | none => none
          | some r11 =>
            let (_, r12) := r11.span isPySpace
            match eatL "super(message:".toList r12 with
            | none => none
            | some r13 =>
              let (_, r14) := r13.span isPySpace
              match eatL "message);".toList r14 with
              | none => none
              | some r15 =>
                let g1 := "const".toList ++ ws1 ++ wd ++ ws2 ++ ['\x7b'] ++ ws3
                let g2 := ws4 ++ ['\x7d']
                some (g1 ++ "required super.message".toList ++ g2 ++ [';'], r15)

/-- Membership test used by the pattern 2 group below. -/
def p2Group2Ok (pre : List Char) : Bool :=
  (pre.reverse.takeWhile (fun c => c ≠ '\n')).all isPySpace

/-- Matcher for pattern 2 of fix_super_parameters.py, anchored at the
start of s:

  (\s+const\s+\w+\s*\{\s*\n\s*)required String message,(\s*(?:[^}]+\n)*\s*\})\s*:\s*super\(message:\s*message\);

compiled with MULTILINE and DOTALL (neither changes anything: the
pattern has no anchors and no dot) and template
\1required super.message,\2; .

Determinism notes.  The piece \{\s*\n\s* consumes the whole whitespace
run after the brace, which must contain a newline (the greedy first \s*
backtracks to the last newline of the run and the second \s* takes the
remainder, so together they cover the run exactly).  The group
(\s*(?:[^}]+\n)*\s*\}) can never pass a closing brace, since every one
of its pieces excludes it, so it spans exactly the text up to the first
closing brace after the comma; that span matches \s*(?:[^}]+\n)* \s*
if and only if the characters after its last newline are all
whitespace (all of it whitespace when it has no newline), which is the
p2Group2Ok test above on the span. -/
def matchP2At (s : List Char) : Option (List Char × List Char) :=
  let (ws0, r0) := s.span isPySpace
  if ws0.isEmpty then none else
  match eatL "const".toList r0 with
  | none => none
  | some r1 =>
    let (ws1, r2) := r1.span isPySpace
    if ws1.isEmpty then none else
    let (wd, r3) := r2.span isPyWord
    if wd.isEmpty then none else
    let (ws2, r4) := r3.span isPySpace
    match eatL ['\x7b'] r4 with
    | none => none
    | some r5 =>
      let (ws3, r6) := r5.span isPySpace
      if ws3.contains '\n' then
        match eatL "required String message,".toList r6 with
        | none => none
        | some r7 =>
          let pre := r7.takeWhile (fun c => c ≠ '\x7d')
          let r8 := r7.drop pre.length
          match eatL ['\x7d'] r8 with
          | none => none
          | some r9 =>
            if p2Group2Ok pre then
              let (_, r10) := r9.span isPySpace
              match eatL [':'] r10 with
              | none => none
              | some r11 =>
                let (_, r12) := r11.span isPySpace
                match eatL "super(message:".toList r12 with
                | none => none
                | some r13 =>
                  let (_, r14) := r13.span isPySpace
                  match eatL "message);".toList r14 with
                  | none => none
                  | some r15 =>
                    let g1 := ws0 ++ "const".toList ++ ws1 ++ wd ++ ws2 ++ ['\x7b'] ++ ws3
                    let g2 := pre ++ ['\x7d']
                    some (g1 ++ "required super.message,".toList ++ g2 ++ [';'], r15)
            else none
      else none

/-- Substitution of pattern 1. -/
def sub1 (s : List Char) : List Char := applySub matchP1At s

/-- Substitution of pattern 2. -/
def sub2 (s : List Char) : List Char := applySub matchP2At s

/-- Substitution of pattern 3; the regex of pattern 3 is character for
character the regex of pattern 1, so its substitution is the same
function. -/
def sub3 (s : List Char) : List Char := applySub matchP1At s

/-- The three-pattern pipeline of fix_super_parameters_in_file. -/
def fixSuperTransform (c : List Char) : List Char :=
  sub3 (sub2 (sub1 c))

/-!
Filesystem model.  A node is a file with content or a directory with a
listing; listings are a dedicated mutual inductive so that the tree
walk is structural recursion.  Paths are segment lists, mirroring the
slash-joined strings of the scripts (os.path.join uses the slash).
-/

mutual
inductive Node where
  | file : List Char → Node
  | dir : Entries → Node
deriving DecidableEq
inductive Entries where
  | nil : Entries
  | cons : String → Node → Entries → Entries
deriving DecidableEq
end

/-- Look a name up in a directory listing (first match). -/
def Entries.lookupE : Entries → String → Option Node
  | .nil, _ => none
  | .cons k n es, j => if j = k then some n else es.lookupE j

/-- Replace the first entry named k by the given node; unchanged when
the name is absent. -/
def Entries.replaceIn : Entries → String → Node → Entries
  | .nil, _, _ => .nil
  | .cons k0 n es, k, m => if k0 = k then .cons k0 m es else .cons k0 n (es.replaceIn k m)

/-- Resolve a path to the node it names, as the OS path lookup does. -/
def Node.find? : Node → List String → Option Node
  | n, [] => some n
  | .file _, _ :: _ => none
  | .dir es, k :: p =>
    match es.lookupE k with
    | some m => m.find? p
    | none => none

/-- Content of the file at a path, when the path names a file. -/
def Node.read? (n : Node) (p : List String) : Option (List Char) :=
  match n.find? p with
  | some (.file c) => some c
  | _ => none

/-- Full overwrite of the file at a path, the write of open(path, w)
followed by f.write(content).  The scripts only ever write a path they
have just read, so the model leaves the tree unchanged when the path
does not resolve. -/
def Node.write : Node → List String → List Char → Node
  | _, [], c => .file c
  | .file f, _ :: _, _ => .file f
  | .dir es, k :: p, c =>
    match es.lookupE k with
    | some m => .dir (es.replaceIn k (m.write p c))
    | none => .dir es

mutual
/-- The recursive enumeration of os.walk, restricted to what the
scripts use: every (directory path, file name) pair in the subtree, the
files of a directory before its subdirectories, in listing order.
os.walk of a path that is a plain file yields nothing. -/
def Node.walkPairs : Node → List String → List (List String × String)
  | .file _, _ => []
  | .dir es, pre => Entries.walkFilesOf es pre ++ Entries.walkDirsOf es pre
/-- File entries of one directory, as (directory path, file name). -/
def Entries.walkFilesOf : Entries → List String → List (List String × String)
  | .nil, _ => []
  | .cons k (.file _) es, pre => (pre, k) :: Entries.walkFilesOf es pre
  | .cons _ (.dir _) es, pre => Entries.walkFilesOf es pre
/-- Recursion of the walk into the subdirectories of one directory. -/
def Entries.walkDirsOf : Entries → List String → List (List String × String)
  | .nil, _ => []
  | .cons _ (.file _) es, pre => Entries.walkDirsOf es pre
  | .cons k (.dir d) es, pre =>
    Node.walkPairs (.dir d) (pre ++ [k]) ++ Entries.walkDirsOf es pre
end

/-- The pairs yielded by os.walk("lib") from the working directory cwd.
When lib does not exist (or is a plain file), os.walk yields nothing:
scandir errors are swallowed because os.walk is invoked with its
default onerror=None, so the walk is simply empty.  Neither script
passes onerror or wraps the walk in a try block. -/
def libWalkPairs (cwd : Node) : List (List String × String) :=
  match cwd.find? ["lib"] with
  | some n => n.walkPairs ["lib"]
  | none => []

/-- Name filter of fix_analysis.main: file.endswith(".dart"). -/
def endsDartB (f : String) : Bool :=
  ".dart".toList.isSuffixOf f.toList

/-- Substring test, Python needle in hay. -/
def containsSub (needle : List Char) : List Char → Bool
  | [] => needle.isEmpty
  | c :: t => needle.isPrefixOf (c :: t) || containsSub needle t

/-- Name filter of find_dart_files_with_super_parameter_issues:
file.endswith(".dart") and (failure in file or exception in file). -/
def superNameFilter (f : String) : Bool :=
  endsDartB f && (containsSub "failure".toList f.toList || containsSub "exception".toList f.toList)

/-- Candidate list of fix_analysis.main: every walked file whose name
ends in .dart, as the joined path root ++ [file]. -/
def fixAnalysisCandidates (cwd : Node) : List (List String) :=
  (libWalkPairs cwd).filterMap fun rf =>
    if endsDartB rf.2 then some (rf.1 ++ [rf.2]) else none

/-- Candidate list of find_dart_files_with_super_parameter_issues. -/
def findDartFilesWithIssues (cwd : Node) : List (List String) :=
  (libWalkPairs cwd).filterMap fun rf =>
    if superNameFilter rf.2 then some (rf.1 ++ [rf.2]) else none

/-- One file of fix_analysis.fix_file at the filesystem level: read the
content, run the rule pipeline, and write the file back (printing the
Fixed line, modelled as the path in the notification list) exactly when
the transformed content differs.  A path that does not name a file
yields no action; the walk only hands over existing files, so the
branch is never taken in a run. -/
def fixFileStep (fs : Node) (p : List String) : Node × List (List String) :=
  match fs.read? p with
  | none => (fs, [])
  | some c =>
    let c2 := fixFileTransform c
    if c2 = c then (fs, []) else (fs.write p c2, [p])

/-- Processing loop of fix_analysis.main over a candidate list. -/
def runFAList : Node → List (List String) → Node × List (List String)
  | fs, [] => (fs, [])
  | fs, p :: ps =>
    let r := fixFileStep fs p
    let rest := runFAList r.1 ps
    (rest.1, r.2 ++ rest.2)

/-- Whole run of fix_analysis.main: walk lib, filter by extension,
process each candidate in order.  It returns the final tree and the
list of change notifications (one per written file). -/
def runFixAnalysis (cwd : Node) : Node × List (List String) :=
  runFAList cwd (fixAnalysisCandidates cwd)

/-- Console events of fix_super_parameters.main that the claims speak
about: a processed file (with its changed flag, the return value of
fix_super_parameters_in_file) or a per-file not-found report. -/
inductive Ev where
  | processed : List String → Bool → Ev
  | notFound : List String → Ev
deriving DecidableEq

/-- One file of fix_super_parameters_in_file on content c: run the
three-pattern pipeline and write back exactly when something changed;
the Bool is the functions return value (True when fixed). -/
def fixSuperStep (fs : Node) (p : List String) (c : List Char) : Node × Bool :=
  let c2 := fixSuperTransform c
  if c2 = c then (fs, false) else (fs.write p c2, true)

/-- Processing loop of fix_super_parameters.main: for each target, an
existence check decides between processing and the not-found report.
A target that exists but is a directory makes open() raise (the script
has no handler and would die), modelled as the error outcome. -/
def runFSList : Node → List (List String) → Except (List String) (Node × List Ev)
  | fs, [] => .ok (fs, [])
  | fs, p :: ps =>
    match fs.find? p with
    | none =>
      match runFSList fs ps with
      | .ok r => .ok (r.1, .notFound p :: r.2)
      | .error e => .error e
    | some (.dir _) => .error p
    | some (.file c) =>
      let r := fixSuperStep fs p c
      match runFSList r.1 ps with
      | .ok r2 => .ok (r2.1, .processed p r.2 :: r2.2)
      | .error e => .error e

/-- The hard-coded explicit target list of fix_super_parameters.main,
with the slash-joined strings split at the slashes. -/
def targetFiles : List (List String) :=
  [ ["lib", "features", "library", "domain", "failures", "search_failures.dart"],
    ["lib", "features", "reader", "domain", "failures", "reader_failures.dart"],
    ["lib", "features", "authentication", "domain", "failures", "auth_failures.dart"],
    ["lib", "features", "discovery", "domain", "failures", "api_failures.dart"],
    ["lib", "core", "errors", "exceptions.dart"],
    ["lib", "core", "errors", "failures.dart"] ]

/-- Full target list of fix_super_parameters.main: the explicit list
extended by the walk-discovered files not already in it. -/
def fullTargets (cwd : Node) : List (List String) :=
  targetFiles ++ (findDartFilesWithIssues cwd).filter fun p => !(targetFiles.contains p)

/-- Whole run of fix_super_parameters.main, after its os.chdir into the
project directory: the working tree is the given cwd. -/
def runFixSuper (cwd : Node) : Except (List String) (Node × List Ev) :=
  runFSList cwd (fullTargets cwd)

/-- Process exit status of fix_super_parameters: 0 when the loop
finishes, nonzero only when an unhandled exception kills the script. -/
def fixSuperExit (cwd : Node) : Nat :=
  match runFixSuper cwd with
  | .ok _ => 0
  | .error _ => 1

/-!
Helper lemmas on the filesystem model.
-/

theorem lookupE_replaceIn_self (es : Entries) (k : String) (m mm : Node)
    (h : es.lookupE k = some m) : (es.replaceIn k mm).lookupE k = some mm := by
  match es with
  | .nil => simp [Entries.lookupE] at h
  | .cons k0 n es2 =>
    by_cases hk : k0 = k
    · subst hk
      simp [Entries.replaceIn, Entries.lookupE]
    · have hk2 : ¬ (k = k0) := fun hh => hk hh.symm
      simp only [Entries.lookupE, if_neg hk2] at h
      simp only [Entries.replaceIn, if_neg hk, Entries.lookupE, if_neg hk2]
      exact lookupE_replaceIn_self es2 k m mm h

theorem read?_write_self : ∀ (p : List String) (n : Node) (c0 c : List Char),
    n.read? p = some c0 → (n.write p c).read? p = some c := by
  intro p
  induction p with
  | nil =>
    intro n c0 c h
    cases n with
    | file f => simp [Node.write, Node.read?, Node.find?]
    | dir es => simp [Node.read?, Node.find?] at h
  | cons k p2 ih =>
    intro n c0 c h
    cases n with
    | file f => simp [Node.read?, Node.find?] at h
    | dir es =>
      simp only [Node.read?, Node.find?] at h
      cases hl : es.lookupE k with
      | none => rw [hl] at h; simp at h
      | some m =>
        rw [hl] at h
        simp only [Node.write, hl]
        simp only [Node.read?, Node.find?, lookupE_replaceIn_self es k m _ hl]
        exact ih m c0 c h

theorem fixFileStep_read (fs : Node) (p : List String) (c : List Char)
    (h : fs.read? p = some c) :
    (fixFileStep fs p).1.read? p = some (fixFileTransform c)
      ∧ ((fixFileStep fs p).2 = [] ↔ fixFileTransform c = c) := by
  by_cases hc : fixFileTransform c = c
  · simp [fixFileStep, h, hc]
  · simp only [fixFileStep, h, if_neg hc]
    exact ⟨read?_write_self p fs c _ h, by simp [hc]⟩

theorem fixSuperStep_read (fs : Node) (p : List String) (c : List Char)
    (h : fs.read? p = some c) :
    (fixSuperStep fs p c).1.read? p = some (fixSuperTransform c)
      ∧ ((fixSuperStep fs p c).2 = false ↔ fixSuperTransform c = c) := by
  by_cases hc : fixSuperTransform c = c
  · simp [fixSuperStep, hc, h]
  · simp only [fixSuperStep, if_neg hc]
    exact ⟨read?_write_self p fs c _ h, by simp [hc]⟩

/-!
Concrete inputs used by the claims.
-/

/-- The constructor line that the fix_super_parameters docstrings give
as the shape to be fixed, in standard Dart syntax: the parameter list
opens with a parenthesis before the brace. -/
def dartCtorLine : List Char :=
  "const ServerFailure(\x7brequired String message\x7d) : super(message: message);".toList

/-- A working directory without a lib entry. -/
def cwdNoLib : Node := .dir (.cons "pubspec.yaml" (.file []) .nil)

/-- A working directory whose lib holds one matching dart file. -/
def wTree : Node :=
  .dir (.cons "lib" (.dir (.cons "sample_failure.dart" (.file "surfaceVariant".toList) .nil)) .nil)

/-!
Claim theorems.
-/

/-- Claim C4: capture-group templating of the withOpacity pattern rule.
On Colors.black.withOpacity(0.5) the rule, and the whole fix_file
pipeline, produce exactly Colors.black.withValues(alpha: 0.5). -/
theorem withOpacity_capture_template :
    applySub matchWithOpacityAt "Colors.black.withOpacity(0.5)".toList
        = "Colors.black.withValues(alpha: 0.5)".toList
      ∧ fixFileTransform "Colors.black.withOpacity(0.5)".toList
        = "Colors.black.withValues(alpha: 0.5)".toList := by
  refine ⟨by decide, by decide⟩

/-- Claim C9: the super-parameter patterns require the opening brace
directly after the class name and never admit the parenthesis that
standard Dart constructor syntax puts there, so on the documented
input line const ServerFailure(...) : super(message: message); the
transformation of fix_super_parameters_in_file returns the input
unchanged (and each individual pattern finds no match). -/
theorem super_patterns_skip_standard_constructor :
    fixSuperTransform dartCtorLine = dartCtorLine
      ∧ sub1 dartCtorLine = dartCtorLine
      ∧ sub2 dartCtorLine = dartCtorLine := by
  refine ⟨by decide, by decide, by decide⟩

/-- Claim C3, counterexample: with no lib directory in the working
tree, os.walk(lib) silently yields nothing (default onerror=None), so
fix_analysis.main completes normally with an empty candidate list and
zero files processed; no NotFoundError aborts the run.  Likewise the
walk of fix_super_parameters finds no files. -/
theorem missing_lib_completes_quietly :
    cwdNoLib.find? ["lib"] = none
      ∧ fixAnalysisCandidates cwdNoLib = []
      ∧ runFixAnalysis cwdNoLib = (cwdNoLib, [])
      ∧ findDartFilesWithIssues cwdNoLib = [] := by
  refine ⟨by decide, by decide, rfl, by decide⟩

/-- Claim C3, amended: when the root directory lib does not exist the
tree walk yields no files at all; the run completes normally, processes
zero files, changes nothing and emits no notification, rather than
failing.  The same holds for the walk of fix_super_parameters. -/
theorem missing_lib_no_candidates (cwd : Node) (h : cwd.find? ["lib"] = none) :
    fixAnalysisCandidates cwd = []
      ∧ runFixAnalysis cwd = (cwd, [])
      ∧ findDartFilesWithIssues cwd = [] := by
  have hw : libWalkPairs cwd = [] := by
    simp [libWalkPairs, h]
  refine ⟨?_, ?_, ?_⟩
  · simp [fixAnalysisCandidates, hw]
  · simp [runFixAnalysis, fixAnalysisCandidates, hw, runFAList]
  · simp [findDartFilesWithIssues, hw]

/-- Claim C3, witness for the amended theorem. -/
theorem missing_lib_no_candidates_witness :
    fixAnalysisCandidates cwdNoLib = []
      ∧ runFixAnalysis cwdNoLib = (cwdNoLib, [])
      ∧ findDartFilesWithIssues cwdNoLib = [] :=
  missing_lib_no_candidates cwdNoLib (by decide)

/-- Claim C2: the write-back gate.  For a processed file with original
content c, when the transformed content differs the file is overwritten
in full with the transformed text and one change notification carrying
its path is emitted; when the transformed content equals the original,
the filesystem is returned untouched (bytes unchanged) and nothing is
reported.  Both scripts share the gate; the Bool of fixSuperStep is the
True/False return of fix_super_parameters_in_file. -/
theorem writeback_gate (fs : Node) (p : List String) (c : List Char)
    (h : fs.read? p = some c) :
    ((fixFileTransform c ≠ c →
        fixFileStep fs p = (fs.write p (fixFileTransform c), [p])
          ∧ (fixFileStep fs p).1.read? p = some (fixFileTransform c))
      ∧ (fixFileTransform c = c → fixFileStep fs p = (fs, [])))
    ∧ ((fixSuperTransform c ≠ c →
        fixSuperStep fs p c = (fs.write p (fixSuperTransform c), true)
          ∧ (fixSuperStep fs p c).1.read? p = some (fixSuperTransform c))
      ∧ (fixSuperTransform c = c → fixSuperStep fs p c = (fs, false))) := by
  constructor
  · constructor
    · intro hne
      constructor
      · simp [fixFileStep, h, if_neg hne]
      · exact (fixFileStep_read fs p c h).1
    · intro heq
      simp [fixFileStep, h, heq]
  · constructor
    · intro hne
      constructor
      · simp [fixSuperStep, if_neg hne]
      · exact (fixSuperStep_read fs p c h).1
    · intro heq
      simp [fixSuperStep, heq]

/-- Claim C2, witness at a concrete tree whose single dart file holds
the deprecated identifier, so the transform changes it. -/
theorem writeback_gate_witness :
    wTree.read? ["lib", "sample_failure.dart"] = some "surfaceVariant".toList
      ∧ fixFileTransform "surfaceVariant".toList ≠ "surfaceVariant".toList
      ∧ fixFileStep wTree ["lib", "sample_failure.dart"]
          = (wTree.write ["lib", "sample_failure.dart"]
              (fixFileTransform "surfaceVariant".toList), [["lib", "sample_failure.dart"]]) :=
  ⟨by decide, by decide,
    ((writeback_gate wTree ["lib", "sample_failure.dart"] "surfaceVariant".toList
      (by decide)).1.1 (by decide)).1⟩

/-- Claim C10: determinism of the rewrite.  The transformed content and
the write decision of either script are functions of the file content
alone: two processed files with equal content, at any paths in any
trees, yield equal transformed contents, the same changed/unchanged
decision, and the same resulting bytes at their respective paths. -/
theorem transform_deterministic (fs1 fs2 : Node) (p1 p2 : List String)
    (c1 c2 : List Char) (h1 : fs1.read? p1 = some c1) (h2 : fs2.read? p2 = some c2)
    (hc : c1 = c2) :
    fixFileTransform c1 = fixFileTransform c2
      ∧ (fixFileStep fs1 p1).1.read? p1 = (fixFileStep fs2 p2).1.read? p2
      ∧ ((fixFileStep fs1 p1).2 = [] ↔ (fixFileStep fs2 p2).2 = [])
      ∧ fixSuperTransform c1 = fixSuperTransform c2
      ∧ (fixSuperStep fs1 p1 c1).1.read? p1 = (fixSuperStep fs2 p2 c2).1.read? p2
      ∧ (fixSuperStep fs1 p1 c1).2 = (fixSuperStep fs2 p2 c2).2 := by
  subst hc
  have f1 := fixFileStep_read fs1 p1 c1 h1
  have f2 := fixFileStep_read fs2 p2 c1 h2
  have s1 := fixSuperStep_read fs1 p1 c1 h1
  have s2 := fixSuperStep_read fs2 p2 c1 h2
  refine ⟨rfl, ?_, ?_, rfl, ?_, ?_⟩
  · rw [f1.1, f2.1]
  · rw [f1.2, f2.2]
  · rw [s1.1, s2.1]
  · by_cases hp : fixSuperTransform c1 = c1
    · rw [s1.2.mpr hp, s2.2.mpr hp]
    · have e1 : (fixSuperStep fs1 p1 c1).2 = true := by
        cases hb : (fixSuperStep fs1 p1 c1).2
        · exact absurd (s1.2.mp hb) hp
        · rfl
      have e2 : (fixSuperStep fs2 p2 c1).2 = true := by
        cases hb : (fixSuperStep fs2 p2 c1).2
        · exact absurd (s2.2.mp hb) hp
        · rfl
      rw [e1, e2]

/-- Claim C10, witness: the same content at two different paths in two
different trees. -/
theorem transform_deterministic_witness :
    fixFileTransform "surfaceVariant".toList = fixFileTransform "surfaceVariant".toList
      ∧ (fixFileStep wTree ["lib", "sample_failure.dart"]).1.read? ["lib", "sample_failure.dart"]
          = (fixFileStep (Node.dir (.cons "x.dart" (.file "surfaceVariant".toList) .nil))
              ["x.dart"]).1.read? ["x.dart"] :=
  ⟨(transform_deterministic wTree (Node.dir (.cons "x.dart" (.file "surfaceVariant".toList) .nil))
      ["lib", "sample_failure.dart"] ["x.dart"] "surfaceVariant".toList "surfaceVariant".toList
      (by decide) (by decide) rfl).1,
   (transform_deterministic wTree (Node.dir (.cons "x.dart" (.file "surfaceVariant".toList) .nil))
      ["lib", "sample_failure.dart"] ["x.dart"] "surfaceVariant".toList "surfaceVariant".toList
      (by decide) (by decide) rfl).2.1⟩

/-!
Shape of a path in a tree: none when it does not resolve, some true
for a file, some false for a directory.  Writes to file paths preserve
the shape of every path, which carries the existence checks of the
fix_super_parameters loop across earlier writes.
-/

def shape : Option Node → Option Bool
  | none => none
  | some (.file _) => some true
  | some (.dir _) => some false

theorem shape_eq_none (o : Option Node) : shape o = none ↔ o = none := by
  match o with
  | none => simp [shape]
  | some (.file c) => simp [shape]
  | some (.dir es) => simp [shape]

theorem shape_eq_true (o : Option Node) : shape o = some true ↔ ∃ c, o = some (.file c) := by
  match o with
  | none => simp [shape]
  | some (.file c) => simp [shape]
  | some (.dir es) => simp [shape]

theorem read?_eq_some_iff (n : Node) (p : List String) (c : List Char) :
    n.read? p = some c ↔ n.find? p = some (.file c) := by
  rw [Node.read?]
  match h : n.find? p with
  | none => simp
  | some (.file c0) => simp
  | some (.dir es) => simp

theorem lookupE_replaceIn_other (es : Entries) (k : String) (mm : Node) (j : String)
    (hj : ¬ (j = k)) : (es.replaceIn k mm).lookupE j = es.lookupE j := by
  match es with
  | .nil => rfl
  | .cons k0 n es2 =>
    by_cases hk : k0 = k
    · subst hk
      simp only [Entries.replaceIn, if_pos rfl, Entries.lookupE, if_neg hj]
    · simp only [Entries.replaceIn, if_neg hk, Entries.lookupE]
      by_cases hj0 : j = k0
      · simp [if_pos hj0]
      · simp only [if_neg hj0]
        exact lookupE_replaceIn_other es2 k mm j hj

theorem shape_find_write : ∀ (q p : List String) (n : Node) (c : List Char),
    shape (n.find? p) = some true →
    shape ((n.write p c).find? q) = shape (n.find? q) := by
  intro q
  induction q with
  | nil =>
    intro p n c h
    match p, n with
    | [], n =>
      simp only [Node.find?, shape] at h ⊢
      match n with
      | .file f => simp [Node.write, shape]
      | .dir es => simp [shape] at h
    | k :: p2, .file f => simp [Node.write]
    | k :: p2, .dir es =>
      simp only [Node.write]
      match es.lookupE k with
      | some m => simp [Node.find?, shape]
      | none => simp [Node.find?, shape]
  | cons j q2 ih =>
    intro p n c h
    match p, n with
    | [], n =>
      simp only [Node.find?, shape] at h
      match n with
      | .file f => simp only [Node.write, Node.find?]
      | .dir es => simp at h
    | k :: p2, .file f =>
      simp [Node.write]
    | k :: p2, .dir es =>
      simp only [Node.find?] at h
      match hl : es.lookupE k with
      | none => rw [hl] at h; simp [shape] at h
      | some m =>
        rw [hl] at h
        simp only [Node.write, hl]
        by_cases hj : j = k
        · subst hj
          simp only [Node.find?, lookupE_replaceIn_self es j m _ hl, hl]
          exact ih p2 m c h
        · simp only [Node.find?, lookupE_replaceIn_other es k _ j hj]

theorem fixSuperStep_shape (fs : Node) (p : List String) (c : List Char) (q : List String)
    (h : fs.read? p = some c) :
    shape ((fixSuperStep fs p c).1.find? q) = shape (fs.find? q) := by
  have hsh : shape (fs.find? p) = some true :=
    (shape_eq_true _).mpr ⟨c, (read?_eq_some_iff fs p c).mp h⟩
  by_cases hc : fixSuperTransform c = c
  · simp [fixSuperStep, hc]
  · simp only [fixSuperStep, if_neg hc]
    exact shape_find_write q p fs _ hsh

/-- Target of a console event. -/
def evTarget : Ev → List String
  | .processed p _ => p
  | .notFound p => p

theorem runFSList_ok : ∀ (ts : List (List String)) (fs : Node),
    (∀ p ∈ ts, shape (fs.find? p) ≠ some false) →
    ∃ fs2 log, runFSList fs ts = .ok (fs2, log)
      ∧ (∀ q, shape (fs2.find? q) = shape (fs.find? q))
      ∧ (∀ ev ∈ log, evTarget ev ∈ ts)
      ∧ (∀ p ∈ ts,
          (fs.find? p = none → Ev.notFound p ∈ log)
          ∧ (shape (fs.find? p) = some true → ∃ b, Ev.processed p b ∈ log)) := by
  intro ts
  induction ts with
  | nil =>
    intro fs _
    exact ⟨fs, [], rfl, fun q => rfl, by simp, by simp⟩
  | cons p ts ih =>
    intro fs hok
    match hsh : shape (fs.find? p) with
    | some false => exact absurd hsh (hok p (by simp))
    | none =>
      have hfind : fs.find? p = none := (shape_eq_none _).mp hsh
      obtain ⟨fs2, log, hrun, hshape, hev, hmem⟩ :=
        ih fs (fun q hq => hok q (List.mem_cons_of_mem p hq))
      refine ⟨fs2, .notFound p :: log, ?_, hshape, ?_, ?_⟩
      · simp only [runFSList, hfind, hrun]
      · intro ev hev2
        rcases List.mem_cons.mp hev2 with h | h
        · subst h; simp [evTarget]
        · exact List.mem_cons_of_mem p (hev ev h)
      · intro p2 hp2
        rcases List.mem_cons.mp hp2 with h | h
        · rw [h]
          refine ⟨fun _ => List.mem_cons_self _ _, fun ht => ?_⟩
          rw [hsh] at ht; cases ht
        · refine ⟨fun hn => List.mem_cons_of_mem _ ((hmem p2 h).1 hn),
            fun ht => ?_⟩
          obtain ⟨b, hb⟩ := (hmem p2 h).2 ht
          exact ⟨b, List.mem_cons_of_mem _ hb⟩
    | some true =>
      obtain ⟨c, hfc⟩ := (shape_eq_true _).mp hsh
      have hread : fs.read? p = some c := (read?_eq_some_iff fs p c).mpr hfc
      have hstep : ∀ q, shape ((fixSuperStep fs p c).1.find? q) = shape (fs.find? q) :=
        fun q => fixSuperStep_shape fs p c q hread
      obtain ⟨fs2, log, hrun, hshape, hev, hmem⟩ :=
        ih (fixSuperStep fs p c).1
          (fun q hq => by rw [hstep q]; exact hok q (List.mem_cons_of_mem p hq))
      refine ⟨fs2, .processed p (fixSuperStep fs p c).2 :: log, ?_, ?_, ?_, ?_⟩
      · simp only [runFSList, hfc, hrun]
      · intro q; rw [hshape q, hstep q]
      · intro ev hev2
        rcases List.mem_cons.mp hev2 with h | h
        · subst h; simp [evTarget]
        · exact List.mem_cons_of_mem p (hev ev h)
      · intro p2 hp2
        rcases List.mem_cons.mp hp2 with h | h
        · rw [h]
          refine ⟨fun hn => ?_, fun _ => ⟨(fixSuperStep fs p c).2, List.mem_cons_self _ _⟩⟩
          rw [hn] at hfc; cases hfc
        · refine ⟨fun hn => ?_, fun ht => ?_⟩
          · have hn2 : (fixSuperStep fs p c).1.find? p2 = none := by
              rw [← shape_eq_none, hstep p2, shape_eq_none]; exact hn
            exact List.mem_cons_of_mem _ ((hmem p2 h).1 hn2)
          · have ht2 : shape ((fixSuperStep fs p c).1.find? p2) = some true := by
              rw [hstep p2]; exact ht
            obtain ⟨b, hb⟩ := (hmem p2 h).2 ht2
            exact ⟨b, List.mem_cons_of_mem _ hb⟩

/-- Claim C6: skip-on-missing with exit status 0.  Whatever the target
list of fix_super_parameters.main contains (the explicit six paths plus
the walk-discovered extras), as long as no target path names a
directory the run finishes with exit status 0, reports a per-file
not-found line for every missing target, and processes every target
that exists, missing paths notwithstanding. -/
theorem skip_on_missing_exit_zero (cwd : Node)
    (hok : ∀ p ∈ fullTargets cwd, shape (cwd.find? p) ≠ some false) :
    fixSuperExit cwd = 0
      ∧ ∃ fs2 log, runFixSuper cwd = .ok (fs2, log)
        ∧ (∀ p ∈ fullTargets cwd, cwd.find? p = none → Ev.notFound p ∈ log)
        ∧ (∀ p ∈ fullTargets cwd, (∃ c, cwd.read? p = some c) → ∃ b, Ev.processed p b ∈ log) := by
  obtain ⟨fs2, log, hrun, _, _, hmem⟩ := runFSList_ok (fullTargets cwd) cwd hok
  have hrun2 : runFixSuper cwd = .ok (fs2, log) := hrun
  refine ⟨?_, fs2, log, hrun2, ?_, ?_⟩
  · simp [fixSuperExit, hrun2]
  · exact fun p hp hn => (hmem p hp).1 hn
  · intro p hp hc
    obtain ⟨c, hc2⟩ := hc
    exact (hmem p hp).2 ((shape_eq_true _).mpr ⟨c, (read?_eq_some_iff cwd p c).mp hc2⟩)

/-- Claim C6, witness: a tree carrying one of the six explicit targets
(as a file) while the other five are missing; the run exits 0,
reports the five as not found and processes the existing one. -/
theorem skip_on_missing_exit_zero_witness :
    fixSuperExit wTree = 0
      ∧ ∃ fs2 log, runFixSuper wTree = .ok (fs2, log)
        ∧ (∀ p ∈ fullTargets wTree, wTree.find? p = none → Ev.notFound p ∈ log)
        ∧ (∀ p ∈ fullTargets wTree, (∃ c, wTree.read? p = some c) → ∃ b, Ev.processed p b ∈ log) :=
  skip_on_missing_exit_zero wTree (by decide)

/-!
Selective traversal lemmas.
-/

/-- Path predicate: the final segment (the file name) ends in .dart. -/
def dartPathB (p : List String) : Bool :=
  match p.getLast? with
  | some f => endsDartB f
  | none => false

/-- Path predicate of the fix_super_parameters walk: dart extension and
failure or exception in the file name. -/
def superPathB (p : List String) : Bool :=
  match p.getLast? with
  | some f => superNameFilter f
  | none => false

theorem mem_fixAnalysisCandidates (cwd : Node) (p : List String)
    (h : p ∈ fixAnalysisCandidates cwd) : dartPathB p = true := by
  obtain ⟨rf, _, hsome⟩ := List.mem_filterMap.mp h
  by_cases hd : endsDartB rf.2
  · rw [if_pos hd] at hsome
    obtain rfl := Option.some_injective _ hsome
    simp [dartPathB, List.getLast?_concat, hd]
  · rw [if_neg hd] at hsome
    cases hsome

theorem mem_findDartFiles (cwd : Node) (p : List String)
    (h : p ∈ findDartFilesWithIssues cwd) : superPathB p = true := by
  obtain ⟨rf, _, hsome⟩ := List.mem_filterMap.mp h
  by_cases hd : superNameFilter rf.2
  · rw [if_pos hd] at hsome
    obtain rfl := Option.some_injective _ hsome
    simp [superPathB, List.getLast?_concat, hd]
  · rw [if_neg hd] at hsome
    cases hsome

theorem fixFileStep_log (fs : Node) (p : List String) :
    (fixFileStep fs p).2 = [] ∨ (fixFileStep fs p).2 = [p] := by
  rw [fixFileStep]
  match fs.read? p with
  | none => exact Or.inl rfl
  | some c =>
    by_cases hc : fixFileTransform c = c
    · simp [hc]
    · simp [hc]

theorem runFAList_log_sub : ∀ (ps : List (List String)) (fs : Node) (q : List String),
    q ∈ (runFAList fs ps).2 → q ∈ ps := by
  intro ps
  induction ps with
  | nil => intro fs q h; simp [runFAList] at h
  | cons p ps ih =>
    intro fs q h
    simp only [runFAList, List.mem_append] at h
    rcases h with h | h
    · rcases fixFileStep_log fs p with he | he
      · rw [he] at h; cases h
      · rw [he] at h
        rcases List.mem_singleton.mp h with rfl
        exact List.mem_cons_self _ _
    · exact List.mem_cons_of_mem p (ih _ q h)

theorem superPathB_dart (p : List String) (h : superPathB p = true) : dartPathB p = true := by
  rw [superPathB] at h
  rw [dartPathB]
  match hl : p.getLast? with
  | none => rw [hl] at h; cases h
  | some f =>
    rw [hl] at h
    simp only [superNameFilter, Bool.and_eq_true] at h
    exact h.1

/-- Claim C7: selective traversal.  Every candidate of the
fix_analysis walk ends in .dart; every walk-discovered candidate of
fix_super_parameters ends in .dart and has failure or exception in its
file name; every path fix_analysis writes is one of its candidates (so
it ends in .dart); and every path in the full target list of
fix_super_parameters (the only paths it ever opens) ends in .dart. -/
theorem selective_traversal (cwd : Node) (p : List String) :
    (p ∈ fixAnalysisCandidates cwd → dartPathB p = true)
      ∧ (p ∈ findDartFilesWithIssues cwd → dartPathB p = true ∧ superPathB p = true)
      ∧ (p ∈ (runFixAnalysis cwd).2 → p ∈ fixAnalysisCandidates cwd ∧ dartPathB p = true)
      ∧ (p ∈ fullTargets cwd → dartPathB p = true) := by
  refine ⟨mem_fixAnalysisCandidates cwd p, ?_, ?_, ?_⟩
  · intro h
    have hs := mem_findDartFiles cwd p h
    exact ⟨superPathB_dart p hs, hs⟩
  · intro h
    have hc := runFAList_log_sub (fixAnalysisCandidates cwd) cwd p h
    exact ⟨hc, mem_fixAnalysisCandidates cwd p hc⟩
  · intro h
    rcases List.mem_append.mp h with h | h
    · have hall : ∀ q ∈ targetFiles, dartPathB q = true := by decide
      exact hall p h
    · exact superPathB_dart p (mem_findDartFiles cwd p (List.mem_of_mem_filter h))

/-- Claim C7, witness at the concrete tree wTree, whose walk finds the
single file lib/sample_failure.dart, which is also processed and
written. -/
theorem selective_traversal_witness :
    dartPathB ["lib", "sample_failure.dart"] = true
      ∧ superPathB ["lib", "sample_failure.dart"] = true
      ∧ (["lib", "sample_failure.dart"] ∈ fixAnalysisCandidates wTree
          ∧ dartPathB ["lib", "sample_failure.dart"] = true)
      ∧ dartPathB ["lib", "sample_failure.dart"] = true :=
  ⟨(selective_traversal wTree ["lib", "sample_failure.dart"]).1 (by decide),
   ((selective_traversal wTree ["lib", "sample_failure.dart"]).2.1 (by decide)).2,
   (selective_traversal wTree ["lib", "sample_failure.dart"]).2.2.1 (by decide),
   (selective_traversal wTree ["lib", "sample_failure.dart"]).2.2.2 (by decide)⟩

/-!
Claim C5: analysis of the literal rule surfaceVariant to
surfaceContainerHighest.  The statement about occurrence counts after
replacement holds for every input without prior occurrences of the
replacement string; the proof tracks which suffixes of the pattern and
of the replacement can be prefixes of the scan output.
-/

/-- Pattern of the literal rule named by the claim. -/
def svL : List Char := "surfaceVariant".toList

/-- Replacement of the literal rule named by the claim. -/
def schL : List Char := "surfaceContainerHighest".toList

theorem prefix_append_split {α : Type} (a u v : List α) (h : a <+: u ++ v) :
    a <+: u ∨ (u <+: a ∧ a.drop u.length <+: v) := by
  obtain ⟨t, ht⟩ := h
  rcases List.append_eq_append_iff.mp ht with ⟨w, hu, _⟩ | ⟨w, ha, hv⟩
  · exact Or.inl ⟨w, hu.symm⟩
  · refine Or.inr ⟨⟨w, ha.symm⟩, ?_⟩
    have hw : a.drop u.length = w := by rw [ha, List.drop_left]
    rw [hw]
    exact ⟨t, hv.symm⟩

theorem infix_append_split {α : Type} : ∀ (x : List α) (a y : List α), a <:+: x ++ y →
    a <:+: y ∨ ∃ i, i < x.length ∧ a <+: x.drop i ++ y := by
  intro x
  induction x with
  | nil => intro a y h; exact Or.inl (by simpa using h)
  | cons c x2 ih =>
    intro a y h
    rcases List.infix_cons_iff.mp (by simpa using h) with hp | hi
    · exact Or.inr ⟨0, by simp, by simpa using hp⟩
    · rcases ih a y hi with h1 | ⟨i, hi2, hp⟩
      · exact Or.inl h1
      · exact Or.inr ⟨i + 1, by simpa using hi2, by simpa using hp⟩

/-- A nonempty suffix is the drop at some position before the end. -/
theorem suffix_eq_drop {α : Type} (a l : List α) (h : a <:+ l) (hne : a ≠ []) :
    ∃ k, k < l.length ∧ a = l.drop k := by
  obtain ⟨t, ht⟩ := h
  refine ⟨t.length, ?_, ?_⟩
  · have := congrArg List.length ht
    simp only [List.length_append] at this
    have ha : 0 < a.length := List.length_pos.mpr hne
    omega
  · rw [← ht, List.drop_left]

theorem countOcc_append_self (a X : List Char) (ha : a ≠ []) :
    countOcc a (a ++ X) = 1 + countOcc a X := by
  match a with
  | [] => exact absurd rfl ha
  | a0 :: a1 =>
    have he : (a0 :: a1) ++ X = a0 :: (a1 ++ X) := rfl
    have hp : (a0 :: a1) <+: a0 :: (a1 ++ X) := he ▸ List.prefix_append (a0 :: a1) X
    rw [he, countOcc_cons, if_pos ⟨ha, hp⟩]
    have hd : (a0 :: (a1 ++ X)).drop (a0 :: a1).length = X := by
      rw [← he, List.drop_left]
    rw [hd]

theorem countOcc_eq_zero_of_not_infix (a : List Char) (ha : a ≠ []) :
    ∀ s, ¬ a <:+: s → countOcc a s = 0 := by
  intro s
  induction s with
  | nil => intro _; rfl
  | cons c t ih =>
    intro h
    rw [countOcc_cons, if_neg]
    · exact ih (fun hi => h (List.infix_cons hi))
    · intro hc
      exact h hc.2.isInfix

theorem not_infix_of_countOcc_zero (a : List Char) (ha : a ≠ []) :
    ∀ s, countOcc a s = 0 → ¬ a <:+: s := by
  intro s
  induction s with
  | nil =>
    intro _ hi
    rcases hi with ⟨u, v, huv⟩
    have hlen := congrArg List.length huv
    simp only [List.length_append, List.length_nil] at hlen
    exact ha (List.eq_nil_of_length_eq_zero (by omega))
  | cons c t ih =>
    intro h hi
    rw [countOcc_cons] at h
    by_cases hc : a ≠ [] ∧ a <+: (c :: t)
    · rw [if_pos hc] at h; omega
    · rw [if_neg hc] at h
      rcases List.infix_cons_iff.mp hi with hp | hinf
      · exact hc ⟨ha, hp⟩
      · exact ih h hinf

/-- Core invariant of the surfaceVariant scan: the output of the
replacement never contains the pattern again, and a nonempty suffix of
the pattern can only lead the output where it led the input.  The
decidable side facts say that the pattern does not meet the replacement
text at any junction: no suffix of the replacement extends to the
pattern and no suffix of the pattern starts the replacement. -/
theorem svRep_main : ∀ n (s : List Char), s.length ≤ n →
    (¬ svL <:+: pyReplace svL schL s)
      ∧ (∀ a2, a2 ≠ [] → a2 <:+ svL → a2 <+: pyReplace svL schL s → a2 <+: s) := by
  intro n
  induction n using Nat.strong_induction_on with
  | _ n ih =>
    intro s hs
    have hnil : (¬ svL <:+: pyReplace svL schL [])
        ∧ (∀ a2, a2 ≠ [] → a2 <:+ svL →
            a2 <+: pyReplace svL schL [] → a2 <+: ([] : List Char)) := by
      constructor
      · intro hi
        have hre : pyReplace svL schL [] = [] := rfl
        rw [hre] at hi
        rcases hi with ⟨u, v, huv⟩
        have hlen := congrArg List.length huv
        simp only [List.length_append, List.length_nil] at hlen
        have hsv : svL = [] := List.eq_nil_of_length_eq_zero (by omega)
        exact absurd hsv (by decide)
      · intro a2 hne _ hp
        have hre : pyReplace svL schL [] = [] := rfl
        rw [hre] at hp
        exact absurd (List.prefix_nil.mp hp) hne
    cases n with
    | zero =>
      have hs0 : s = [] := List.eq_nil_of_length_eq_zero (Nat.le_zero.mp hs)
      subst hs0
      exact hnil
    | succ m =>
      cases s with
      | nil => exact hnil
      | cons c t =>
        have ht : t.length ≤ m := by simpa using hs
        by_cases hm : svL <+: (c :: t)
        · have hrw : pyReplace svL schL (c :: t)
              = schL ++ pyReplace svL schL ((c :: t).drop svL.length) := by
            rw [pyReplace_cons, if_pos ⟨by decide, hm⟩]
          have hlen2 : ((c :: t).drop svL.length).length ≤ t.length := by
            have hsv14 : svL.length = 14 := by decide
            simp only [List.length_drop, List.length_cons, hsv14]
            omega
          have ihp := ih m (Nat.lt_succ_self m) _ (le_trans hlen2 ht)
          have hsch23 : schL.length = 23 := by decide
          constructor
          · intro hin
            rw [hrw] at hin
            rcases infix_append_split schL svL _ hin with hy | ⟨i, hi23, hp⟩
            · exact ihp.1 hy
            · have hi23b : i < 23 := by omega
              rcases prefix_append_split svL (schL.drop i) _ hp with h1 | ⟨h2, _⟩
              · have hD2 : ∀ j, j < 23 → ¬ (svL <+: schL.drop j) := by decide
                exact hD2 i hi23b h1
              · have hD3 : ∀ j, j < 23 → ¬ (schL.drop j <+: svL) := by decide
                exact hD3 i hi23b h2
          · intro a2 hne hsuf hp
            rw [hrw] at hp
            rcases prefix_append_split a2 schL _ hp with h1 | ⟨h2, _⟩
            · obtain ⟨k, hk, hak⟩ := suffix_eq_drop a2 svL hsuf hne
              have hsv14 : svL.length = 14 := by decide
              have hk14 : k < 14 := by omega
              have hD4 : ∀ j, j < 14 → ¬ (svL.drop j <+: schL) := by decide
              exact absurd (hak ▸ h1) (hD4 k hk14)
            · have hl1 := h2.length_le
              have hl2 := hsuf.length_le
              have hsv14 : svL.length = 14 := by decide
              exact absurd rfl (by omega : ¬ (0:Nat) = 0)
        · have hnc : ¬ (svL ≠ [] ∧ svL <+: (c :: t)) := fun hh => hm hh.2
          have hrw : pyReplace svL schL (c :: t) = c :: pyReplace svL schL t := by
            rw [pyReplace_cons, if_neg hnc]
          have ihp := ih m (Nat.lt_succ_self m) t ht
          constructor
          · intro hin
            rw [hrw] at hin
            rcases List.infix_cons_iff.mp hin with hp | hinf
            · have hsvc : svL = 's' :: "urfaceVariant".toList := by decide
              rw [hsvc] at hp
              rcases List.cons_prefix_cons.mp hp with ⟨hc1, hc2⟩
              have htl := ihp.2 "urfaceVariant".toList (by decide) (by decide) hc2
              apply hm
              rw [hsvc, hc1]
              exact List.cons_prefix_cons.mpr ⟨rfl, htl⟩
            · exact ihp.1 hinf
          · intro a2 hne hsuf hp
            rw [hrw] at hp
            match a2, hne with
            | a0 :: a2t, _ =>
              rcases List.cons_prefix_cons.mp hp with ⟨hc1, hc2⟩
              by_cases h2e : a2t = []
              · subst h2e
                rw [hc1]
                exact List.cons_prefix_cons.mpr ⟨rfl, List.nil_prefix⟩
              · have hsuf2 : a2t <:+ svL :=
                  List.IsSuffix.trans ⟨[a0], rfl⟩ hsuf
                have htl := ihp.2 a2t h2e hsuf2 hc2
                rw [hc1]
                exact List.cons_prefix_cons.mpr ⟨rfl, htl⟩

/-- Invariant for the replacement string: a nonempty suffix of the
replacement that starts the scan output is either the whole replacement
(freshly emitted) or already started the input; the replacement has no
nonempty proper border, so partial copies cannot arise at junctions. -/
theorem schQ_main : ∀ n (s : List Char), s.length ≤ n →
    ∀ b2, b2 ≠ [] → b2 <:+ schL → b2 <+: pyReplace svL schL s → (b2 = schL ∨ b2 <+: s) := by
  intro n
  induction n using Nat.strong_induction_on with
  | _ n ih =>
    intro s hs
    have hnil : ∀ b2, b2 ≠ [] → b2 <:+ schL →
        b2 <+: pyReplace svL schL [] → (b2 = schL ∨ b2 <+: ([] : List Char)) := by
      intro b2 hne _ hp
      have hre : pyReplace svL schL [] = [] := rfl
      rw [hre] at hp
      exact absurd (List.prefix_nil.mp hp) hne
    cases n with
    | zero =>
      have hs0 : s = [] := List.eq_nil_of_length_eq_zero (Nat.le_zero.mp hs)
      subst hs0
      exact hnil
    | succ m =>
      cases s with
      | nil => exact hnil
      | cons c t =>
        have ht : t.length ≤ m := by simpa using hs
        intro b2 hne hsuf hp
        have hsch23 : schL.length = 23 := by decide
        by_cases hm : svL <+: (c :: t)
        · have hrw : pyReplace svL schL (c :: t)
              = schL ++ pyReplace svL schL ((c :: t).drop svL.length) := by
            rw [pyReplace_cons, if_pos ⟨by decide, hm⟩]
          rw [hrw] at hp
          rcases prefix_append_split b2 schL _ hp with h1 | ⟨h2, _⟩
          · obtain ⟨k, hk, hbk⟩ := suffix_eq_drop b2 schL hsuf hne
            rcases Nat.eq_zero_or_pos k with hk0 | hkpos
            · subst hk0
              simp only [List.drop_zero] at hbk
              exact Or.inl hbk
            · have hD5 : ∀ j, j < 23 → 0 < j → ¬ (schL.drop j <+: schL) := by decide
              exact absurd (hbk ▸ h1) (hD5 k (by omega) hkpos)
          · have hl1 := h2.length_le
            have hl2 := hsuf.length_le
            exact Or.inl (h2.eq_of_length (by omega)).symm
        · have hnc : ¬ (svL ≠ [] ∧ svL <+: (c :: t)) := fun hh => hm hh.2
          have hrw : pyReplace svL schL (c :: t) = c :: pyReplace svL schL t := by
            rw [pyReplace_cons, if_neg hnc]
          rw [hrw] at hp
          match b2, hne, hsuf, hp with
          | b0 :: b2t, _, hsuf, hp =>
            rcases List.cons_prefix_cons.mp hp with ⟨hc1, hc2⟩
            by_cases h2e : b2t = []
            · subst h2e
              rw [hc1]
              exact Or.inr (List.cons_prefix_cons.mpr ⟨rfl, List.nil_prefix⟩)
            · have hsuf2 : b2t <:+ schL := List.IsSuffix.trans ⟨[b0], rfl⟩ hsuf
              rcases ih m (Nat.lt_succ_self m) t ht b2t h2e hsuf2 hc2 with he | hpt
              · have hl1 := hsuf.length_le
                have hl2 := congrArg List.length he
                simp only [hsch23] at hl2
                simp only [List.length_cons, hsch23] at hl1
                omega
              · rw [hc1]
                exact Or.inr (List.cons_prefix_cons.mpr ⟨rfl, hpt⟩)

/-- Count preservation: on an input free of the replacement string, the
scan output holds exactly one copy of the replacement per occurrence of
the pattern in the input. -/
theorem countPres_main : ∀ n (s : List Char), s.length ≤ n → ¬ schL <:+: s →
    countOcc schL (pyReplace svL schL s) = countOcc svL s := by
  intro n
  induction n using Nat.strong_induction_on with
  | _ n ih =>
    intro s hs hIn
    cases n with
    | zero =>
      have hs0 : s = [] := List.eq_nil_of_length_eq_zero (Nat.le_zero.mp hs)
      subst hs0
      rfl
    | succ m =>
      cases s with
      | nil => rfl
      | cons c t =>
        have ht : t.length ≤ m := by simpa using hs
        by_cases hm : svL <+: (c :: t)
        · have hrw : pyReplace svL schL (c :: t)
              = schL ++ pyReplace svL schL ((c :: t).drop svL.length) := by
            rw [pyReplace_cons, if_pos ⟨by decide, hm⟩]
          have hlen2 : ((c :: t).drop svL.length).length ≤ t.length := by
            have hsv14 : svL.length = 14 := by decide
            simp only [List.length_drop, List.length_cons, hsv14]
            omega
          have hIn2 : ¬ schL <:+: (c :: t).drop svL.length := fun hinf =>
            hIn (hinf.trans (List.drop_suffix svL.length (c :: t)).isInfix)
          rw [hrw, countOcc_append_self schL _ (by decide),
            countOcc_cons, if_pos ⟨by decide, hm⟩,
            ih m (Nat.lt_succ_self m) _ (le_trans hlen2 ht) hIn2]
        · have hnc : ¬ (svL ≠ [] ∧ svL <+: (c :: t)) := fun hh => hm hh.2
          have hrw : pyReplace svL schL (c :: t) = c :: pyReplace svL schL t := by
            rw [pyReplace_cons, if_neg hnc]
          have hnp2 : ¬ (schL <+: c :: pyReplace svL schL t) := by
            intro hp
            have hschc : schL = 's' :: "urfaceContainerHighest".toList := by decide
            rw [hschc] at hp
            rcases List.cons_prefix_cons.mp hp with ⟨hc1, hc2⟩
            rcases schQ_main t.length t le_rfl "urfaceContainerHighest".toList
                (by decide) (by decide) hc2 with he | hpt
            · exact absurd (congrArg List.length he) (by decide)
            · apply hIn
              apply List.IsPrefix.isInfix
              rw [hschc, hc1]
              exact List.cons_prefix_cons.mpr ⟨rfl, hpt⟩
          have hIt : ¬ schL <:+: t := fun hinf => hIn (List.infix_cons hinf)
          rw [hrw, countOcc_cons, if_neg (fun hh => hnp2 hh.2),
            countOcc_cons (a := svL), if_neg hnc,
            ih m (Nat.lt_succ_self m) t ht hIt]

/-- Text with three occurrences of the pattern and one prior occurrence
of the replacement string. -/
def cexPre : List Char :=
  "surfaceContainerHighest surfaceVariant surfaceVariant surfaceVariant".toList

/-- Text with three occurrences of the pattern and none of the
replacement string. -/
def wit5 : List Char :=
  "x surfaceVariant y surfaceVariant z surfaceVariant w".toList

/-- Claim C5, counterexample: a text with exactly three non-overlapping
occurrences of surfaceVariant on which the replacement result does not
contain exactly three occurrences of surfaceContainerHighest, because
the text already held one: the result holds four. -/
theorem literal_rule_three_occurrences_cex :
    countOcc svL cexPre = 3
      ∧ countOcc schL (pyReplace svL schL cexPre) ≠ 3
      ∧ countOcc schL (pyReplace svL schL cexPre) = 4 := by
  refine ⟨by decide, by decide, by decide⟩

/-- Claim C5, amended: for the literal rule surfaceVariant to
surfaceContainerHighest, applied to any text with exactly three
non-overlapping occurrences of the pattern and no prior occurrence of
the replacement string, the result contains zero occurrences of the
pattern and exactly three of the replacement; the substitution is
global, not first-match-only.  (Without the no-prior-occurrence
hypothesis the pattern count still drops to zero, but the replacement
count is three plus the prior count.) -/
theorem literal_rule_global_replacement (s : List Char)
    (h3 : countOcc svL s = 3) (h0 : countOcc schL s = 0) :
    countOcc svL (pyReplace svL schL s) = 0
      ∧ countOcc schL (pyReplace svL schL s) = 3 := by
  constructor
  · exact countOcc_eq_zero_of_not_infix svL (by decide) _ ((svRep_main s.length s le_rfl).1)
  · rw [countPres_main s.length s le_rfl (not_infix_of_countOcc_zero schL (by decide) s h0), h3]

/-- Claim C5, witness for the amended theorem. -/
theorem literal_rule_global_replacement_witness :
    countOcc svL wit5 = 3 ∧ countOcc schL wit5 = 0
      ∧ countOcc svL (pyReplace svL schL wit5) = 0
      ∧ countOcc schL (pyReplace svL schL wit5) = 3 :=
  ⟨by decide, by decide,
    (literal_rule_global_replacement wit5 (by decide) (by decide)).1,
    (literal_rule_global_replacement wit5 (by decide) (by decide)).2⟩

/-!
Claim C8: pattern 3 is the same regex as pattern 1, and its
substitution is the identity on everything the first two substitutions
can produce.  The proof works with a compiled element form of
pattern 1 and a character-stepping relation on its residual states:
every state of pattern 1 dies inside a replacement emitted by
substitution 1 or substitution 2, and a state that survives a copied
character was live on the original text too, so a match in the output
of the pipeline would exhibit a match the earlier passes must have
consumed.
-/

/-- Element of the compiled pattern: a literal, an optional whitespace
run, a required whitespace run, an optional word run, a required word
run. -/
inductive PElem where
  | lit : List Char → PElem
  | ws0 : PElem
  | ws1 : PElem
  | wd0 : PElem
  | wd1 : PElem
deriving DecidableEq

/-- Forced-greedy matcher for a list of elements; returns the rest of
the input after the consumed prefix.  It is the element-by-element
reading of the deterministic scans above. -/
def matchElems : List PElem → List Char → Option (List Char)
  | [], s => some s
  | .lit l :: rest, s =>
    match eatL l s with
    | some s2 => matchElems rest s2
    | none => none
  | .ws0 :: rest, s => matchElems rest (s.dropWhile isPySpace)
  | .ws1 :: rest, s =>
    if (s.takeWhile isPySpace).isEmpty then none
    else matchElems rest (s.dropWhile isPySpace)
  | .wd0 :: rest, s => matchElems rest (s.dropWhile isPyWord)
  | .wd1 :: rest, s =>
    if (s.takeWhile isPyWord).isEmpty then none
    else matchElems rest (s.dropWhile isPyWord)

/-- Pattern 1 in element form. -/
def p1Elems : List PElem :=
  [.lit "const".toList, .ws1, .wd1, .ws0, .lit ['\x7b'], .ws0,
   .lit "required String message".toList, .ws0, .lit ['\x7d'], .ws0, .lit [':'], .ws0,
   .lit "super(message:".toList, .ws0, .lit "message);".toList]

/-- Remove empty literals at the head of a state. -/
def normE : List PElem → List PElem
  | .lit [] :: rest => normE rest
  | r => r

/-- One character of the forced matcher: the next state after
consuming c, none when the pattern dies. -/
def stepE : List PElem → Char → Option (List PElem)
  | [], _ => none
  | .lit [] :: rest, c => stepE rest c
  | .lit (l0 :: ls) :: rest, c => if c = l0 then some (normE (.lit ls :: rest)) else none
  | .ws0 :: rest, c => if isPySpace c then some (.ws0 :: rest) else stepE rest c
  | .ws1 :: rest, c => if isPySpace c then some (.ws0 :: rest) else none
  | .wd0 :: rest, c => if isPyWord c then some (.wd0 :: rest) else stepE rest c
  | .wd1 :: rest, c => if isPyWord c then some (.wd0 :: rest) else none

/-- A state that matches without consuming anything. -/
def nullE : List PElem → Bool
  | [] => true
  | .lit [] :: rest => nullE rest
  | .ws0 :: rest => nullE rest
  | .wd0 :: rest => nullE rest
  | _ => false

/-- Whether a state accepts the text: its elements match a prefix. -/
def acceptE (q : List PElem) (s : List Char) : Bool :=
  (matchElems q s).isSome

theorem eatL_nil_lit (s : List Char) : eatL [] s = some s := by
  simp [eatL, List.isPrefixOf]

theorem eatL_cons (l0 : Char) (ls : List Char) (c : Char) (y : List Char) :
    eatL (l0 :: ls) (c :: y) = if c = l0 then eatL ls y else none := by
  by_cases h : c = l0
  · subst h
    simp [eatL, List.isPrefixOf]
  · have h2 : ¬ (l0 == c) = true := by
      simp only [beq_iff_eq]
      exact fun hh => h hh.symm
    simp [eatL, List.isPrefixOf, h, h2]

theorem eatL_cons_nil (l0 : Char) (ls : List Char) : eatL (l0 :: ls) [] = none := by
  simp [eatL, List.isPrefixOf]

theorem matchElems_normE : ∀ (q : List PElem) (s : List Char),
    matchElems (normE q) s = matchElems q s := by
  intro q s
  match q with
  | [] => rfl
  | .lit [] :: rest =>
    rw [show normE (.lit [] :: rest) = normE rest from rfl]
    rw [matchElems_normE rest s]
    simp [matchElems, eatL_nil_lit]
  | .lit (l0 :: ls) :: rest => rfl
  | .ws0 :: rest => rfl
  | .ws1 :: rest => rfl
  | .wd0 :: rest => rfl
  | .wd1 :: rest => rfl

theorem nullE_accepts : ∀ (q : List PElem) (s : List Char),
    nullE q = true → (matchElems q s).isSome = true := by
  intro q s h
  match q with
  | [] => rfl
  | .lit [] :: rest =>
    simp only [matchElems, eatL_nil_lit]
    exact nullE_accepts rest s h
  | .lit (l0 :: ls) :: rest => simp [nullE] at h
  | .ws0 :: rest => exact nullE_accepts rest _ h
  | .ws1 :: rest => simp [nullE] at h
  | .wd0 :: rest => exact nullE_accepts rest _ h
  | .wd1 :: rest => simp [nullE] at h

/-- One character of acceptance: a state accepts c followed by y when
it is nullable (the match is already complete) or when the stepped
state accepts y. -/
theorem acceptE_cons : ∀ (q : List PElem) (c : Char) (y : List Char),
    acceptE q (c :: y) =
      (nullE q || (match stepE q c with
        | some q2 => acceptE q2 y
        | none => false)) := by
  intro q c y
  match q with
  | [] => rfl
  | .lit [] :: rest =>
    show acceptE (.lit [] :: rest) (c :: y) = _
    have h1 : acceptE (.lit [] :: rest) (c :: y) = acceptE rest (c :: y) := by
      simp [acceptE, matchElems, eatL_nil_lit]
    rw [h1, acceptE_cons rest c y]
    rfl
  | .lit (l0 :: ls) :: rest =>
    simp only [acceptE, matchElems, eatL_cons, nullE, stepE, Bool.false_or]
    by_cases h : c = l0
    · rw [if_pos h, if_pos h]
      match ls with
      | [] =>
        simp only [eatL_nil_lit, acceptE, matchElems_normE, matchElems]
      | ls0 :: ls1 =>
        rfl
    · rw [if_neg h, if_neg h]
      rfl
  | .ws0 :: rest =>
    by_cases h : isPySpace c = true
    · have h1 : acceptE (.ws0 :: rest) (c :: y)
          = (matchElems rest (y.dropWhile isPySpace)).isSome := by
        simp [acceptE, matchElems, List.dropWhile, h]
      simp only [stepE, if_pos h, nullE, h1]
      rcases Bool.eq_false_or_eq_true (nullE rest) with hn | hn
      · simp [hn, nullE_accepts rest _ hn]
      · simp [hn, acceptE, matchElems]
    · have h1 : acceptE (.ws0 :: rest) (c :: y) = acceptE rest (c :: y) := by
        simp [acceptE, matchElems, List.dropWhile, h]
      rw [h1, acceptE_cons rest c y]
      simp only [stepE, if_neg h, nullE]
  | .ws1 :: rest =>
    by_cases h : isPySpace c = true
    · have h1 : acceptE (.ws1 :: rest) (c :: y)
          = (matchElems rest (y.dropWhile isPySpace)).isSome := by
        simp [acceptE, matchElems, List.takeWhile, List.dropWhile, h]
      simp only [stepE, if_pos h, nullE, h1, Bool.false_or]
      simp [acceptE, matchElems]
    · have h1 : acceptE (.ws1 :: rest) (c :: y) = false := by
        simp [acceptE, matchElems, List.takeWhile, h]
      simp [h1, stepE, h, nullE]
  | .wd0 :: rest =>
    by_cases h : isPyWord c = true
    · have h1 : acceptE (.wd0 :: rest) (c :: y)
          = (matchElems rest (y.dropWhile isPyWord)).isSome := by
        simp [acceptE, matchElems, List.dropWhile, h]
      simp only [stepE, if_pos h, nullE, h1]
      rcases Bool.eq_false_or_eq_true (nullE rest) with hn | hn
      · simp [hn, nullE_accepts rest _ hn]
      · simp [hn, acceptE, matchElems]
    · have h1 : acceptE (.wd0 :: rest) (c :: y) = acceptE rest (c :: y) := by
        simp [acceptE, matchElems, List.dropWhile, h]
      rw [h1, acceptE_cons rest c y]
      simp only [stepE, if_neg h, nullE]
  | .wd1 :: rest =>
    by_cases h : isPyWord c = true
    · have h1 : acceptE (.wd1 :: rest) (c :: y)
          = (matchElems rest (y.dropWhile isPyWord)).isSome := by
        simp [acceptE, matchElems, List.takeWhile, List.dropWhile, h]
      simp only [stepE, if_pos h, nullE, h1, Bool.false_or]
      simp [acceptE, matchElems]
    · have h1 : acceptE (.wd1 :: rest) (c :: y) = false := by
        simp [acceptE, matchElems, List.takeWhile, h]
      simp [h1, stepE, h, nullE]

/-- The hand-compiled matcher of pattern 1 and its element form agree
on failure. -/
theorem matchP1At_none_iff (s : List Char) :
    matchP1At s = none ↔ matchElems p1Elems s = none := by
  unfold matchP1At
  simp only [p1Elems, matchElems, List.span_eq_take_drop]
  cases h0 : eatL "const".toList s with
  | none => simp
  | some r1 =>
    simp only []
    by_cases h1 : (r1.takeWhile isPySpace).isEmpty
    · simp [h1]
    · simp only [h1, if_false, Bool.false_eq_true]
      by_cases h2 : ((r1.dropWhile isPySpace).takeWhile isPyWord).isEmpty
      · simp [h2]
      · simp only [h2, if_false, Bool.false_eq_true]
        cases h3 : eatL ['\x7b'] (((r1.dropWhile isPySpace).dropWhile isPyWord).dropWhile isPySpace) with
        | none => simp
        | some r5 =>
          simp only []
          cases h4 : eatL "required String message".toList (r5.dropWhile isPySpace) with
          | none => simp
          | some r7 =>
            simp only []
            cases h5 : eatL ['\x7d'] (r7.dropWhile isPySpace) with
            | none => simp
            | some r9 =>
              simp only []
              cases h6 : eatL [':'] (r9.dropWhile isPySpace) with
              | none => simp
              | some r11 =>
                simp only []
                cases h7 : eatL "super(message:".toList (r11.dropWhile isPySpace) with
                | none => simp
                | some r13 =>
                  simp only []
                  cases h8 : eatL "message);".toList (r13.dropWhile isPySpace) with
                  | none => simp
                  | some r15 => simp

/-- The literals of pattern 1, named for the state analysis. -/
def kConst : List Char := "const".toList

def kLit23 : List Char := "required String message".toList

def kLit14 : List Char := "super(message:".toList

def kLit9 : List Char := "message);".toList

/-- Tail of the element form of pattern 1 from position i. -/
def p1T (i : Nat) : List PElem := p1Elems.drop i

/-- The residual states of pattern 1: the element tails at run or
literal boundaries, and the in-literal suffix states. -/
def p1StateP (q : List PElem) : Prop :=
  q = [] ∨ q = p1T 1 ∨ q = .ws0 :: p1T 2 ∨ q = .wd0 :: p1T 3 ∨ q = p1T 3 ∨ q = p1T 5
    ∨ q = p1T 7 ∨ q = p1T 9 ∨ q = p1T 11 ∨ q = p1T 13
    ∨ (∃ j, j < kConst.length ∧ q = .lit (kConst.drop j) :: p1T 1)
    ∨ (∃ j, j < kLit23.length ∧ q = .lit (kLit23.drop j) :: p1T 7)
    ∨ (∃ j, j < kLit14.length ∧ q = .lit (kLit14.drop j) :: p1T 13)
    ∨ (∃ j, j < kLit9.length ∧ q = .lit (kLit9.drop j) :: p1T 15)

theorem p1Elems_state : p1StateP p1Elems := by
  refine Or.inr (Or.inr (Or.inr (Or.inr (Or.inr (Or.inr (Or.inr (Or.inr (Or.inr
    (Or.inr (Or.inl ⟨0, by decide, rfl⟩))))))))))

theorem stepE_lit_suffix (l : List Char) (rest : List PElem) (j : Nat) (hj : j < l.length)
    (c : Char) (q2 : List PElem) (h : stepE (.lit (l.drop j) :: rest) c = some q2) :
    q2 = normE (.lit (l.drop (j + 1)) :: rest) := by
  rw [List.drop_eq_getElem_cons hj] at h
  simp only [stepE] at h
  by_cases hc : c = l[j]
  · rw [if_pos hc] at h
    exact (Option.some_injective _ h).symm
  · rw [if_neg hc] at h
    cases h

theorem st_nil : p1StateP [] := Or.inl rfl

theorem st_T1 : p1StateP (p1T 1) := Or.inr (Or.inl rfl)

theorem st_ws2 : p1StateP (.ws0 :: p1T 2) := Or.inr (Or.inr (Or.inl rfl))

theorem st_wd3 : p1StateP (.wd0 :: p1T 3) := Or.inr (Or.inr (Or.inr (Or.inl rfl)))

theorem st_T3 : p1StateP (p1T 3) := Or.inr (Or.inr (Or.inr (Or.inr (Or.inl rfl))))

theorem st_T5 : p1StateP (p1T 5) :=
  Or.inr (Or.inr (Or.inr (Or.inr (Or.inr (Or.inl rfl)))))

theorem st_T7 : p1StateP (p1T 7) :=
  Or.inr (Or.inr (Or.inr (Or.inr (Or.inr (Or.inr (Or.inl rfl))))))

theorem st_T9 : p1StateP (p1T 9) :=
  Or.inr (Or.inr (Or.inr (Or.inr (Or.inr (Or.inr (Or.inr (Or.inl rfl)))))))

theorem st_T11 : p1StateP (p1T 11) :=
  Or.inr (Or.inr (Or.inr (Or.inr (Or.inr (Or.inr (Or.inr (Or.inr (Or.inl rfl))))))))

theorem st_T13 : p1StateP (p1T 13) :=
  Or.inr (Or.inr (Or.inr (Or.inr (Or.inr (Or.inr (Or.inr (Or.inr (Or.inr (Or.inl rfl)))))))))

theorem st_const (j : Nat) (hj : j < kConst.length) :
    p1StateP (.lit (kConst.drop j) :: p1T 1) :=
  Or.inr (Or.inr (Or.inr (Or.inr (Or.inr (Or.inr (Or.inr (Or.inr (Or.inr (Or.inr
    (Or.inl ⟨j, hj, rfl⟩))))))))))

theorem st_lit23 (j : Nat) (hj : j < kLit23.length) :
    p1StateP (.lit (kLit23.drop j) :: p1T 7) :=
  Or.inr (Or.inr (Or.inr (Or.inr (Or.inr (Or.inr (Or.inr (Or.inr (Or.inr (Or.inr
    (Or.inr (Or.inl ⟨j, hj, rfl⟩)))))))))))

theorem st_lit14 (j : Nat) (hj : j < kLit14.length) :
    p1StateP (.lit (kLit14.drop j) :: p1T 13) :=
  Or.inr (Or.inr (Or.inr (Or.inr (Or.inr (Or.inr (Or.inr (Or.inr (Or.inr (Or.inr
    (Or.inr (Or.inr (Or.inl ⟨j, hj, rfl⟩))))))))))))

theorem st_lit9 (j : Nat) (hj : j < kLit9.length) :
    p1StateP (.lit (kLit9.drop j) :: p1T 15) :=
  Or.inr (Or.inr (Or.inr (Or.inr (Or.inr (Or.inr (Or.inr (Or.inr (Or.inr (Or.inr
    (Or.inr (Or.inr (Or.inr ⟨j, hj, rfl⟩))))))))))))

theorem closure_lit_family (l : List Char) (T : List PElem)
    (stT : p1StateP (normE (.lit [] :: T)))
    (stfam : ∀ j2, j2 < l.length → p1StateP (.lit (l.drop j2) :: T))
    (j : Nat) (hj : j < l.length) (c : Char) (q2 : List PElem)
    (h : stepE (.lit (l.drop j) :: T) c = some q2) : p1StateP q2 := by
  have hq2 := stepE_lit_suffix l T j hj c q2 h
  by_cases hj2 : j + 1 < l.length
  · have e : normE (.lit (l.drop (j + 1)) :: T) = .lit (l.drop (j + 1)) :: T := by
      rw [List.drop_eq_getElem_cons hj2]; rfl
    rw [hq2, e]
    exact stfam (j + 1) hj2
  · have hj3 : l.drop (j + 1) = [] := List.drop_eq_nil_of_le (by omega)
    rw [hq2, hj3]
    exact stT

/-- The residual states of pattern 1 are closed under stepping. -/
theorem p1StateP_step (q : List PElem) (c : Char) (q2 : List PElem)
    (hq : p1StateP q) (h : stepE q c = some q2) : p1StateP q2 := by
  rcases hq with rfl | rfl | rfl | rfl | rfl | rfl | rfl | rfl | rfl | rfl
    | ⟨j, hj, rfl⟩ | ⟨j, hj, rfl⟩ | ⟨j, hj, rfl⟩ | ⟨j, hj, rfl⟩
  · simp [stepE] at h
  · rw [show p1T 1 = .ws1 :: p1T 2 from rfl] at h
    simp only [stepE] at h
    split_ifs at h
    · exact Option.some.inj h ▸ st_ws2
  · rw [show p1T 2 = .wd1 :: p1T 3 from rfl] at h
    simp only [stepE] at h
    split_ifs at h
    · exact Option.some.inj h ▸ st_ws2
    · exact Option.some.inj h ▸ st_wd3
  · rw [show p1T 3 = .ws0 :: .lit ['\x7b'] :: p1T 5 from rfl] at h
    simp only [stepE] at h
    split_ifs at h
    · exact Option.some.inj h ▸ st_wd3
    · exact Option.some.inj h ▸ st_T3
    · exact Option.some.inj h ▸ (show p1StateP (normE (.lit [] :: p1T 5)) from st_T5)
  · rw [show p1T 3 = .ws0 :: .lit ['\x7b'] :: p1T 5 from rfl] at h
    simp only [stepE] at h
    split_ifs at h
    · exact Option.some.inj h ▸ st_T3
    · exact Option.some.inj h ▸ (show p1StateP (normE (.lit [] :: p1T 5)) from st_T5)
  · rw [show p1T 5 = .ws0 :: .lit kLit23 :: p1T 7 from rfl,
      show kLit23 = 'r' :: kLit23.drop 1 from rfl] at h
    simp only [stepE] at h
    split_ifs at h
    · exact Option.some.inj h ▸ st_T5
    · exact Option.some.inj h ▸
        (show p1StateP (normE (.lit (kLit23.drop 1) :: p1T 7)) from st_lit23 1 (by decide))
  · rw [show p1T 7 = .ws0 :: .lit ['\x7d'] :: p1T 9 from rfl] at h
    simp only [stepE] at h
    split_ifs at h
    · exact Option.some.inj h ▸ st_T7
    · exact Option.some.inj h ▸ (show p1StateP (normE (.lit [] :: p1T 9)) from st_T9)
  · rw [show p1T 9 = .ws0 :: .lit [':'] :: p1T 11 from rfl] at h
    simp only [stepE] at h
    split_ifs at h
    · exact Option.some.inj h ▸ st_T9
    · exact Option.some.inj h ▸ (show p1StateP (normE (.lit [] :: p1T 11)) from st_T11)
  · rw [show p1T 11 = .ws0 :: .lit kLit14 :: p1T 13 from rfl,
      show kLit14 = 's' :: kLit14.drop 1 from rfl] at h
    simp only [stepE] at h
    split_ifs at h
    · exact Option.some.inj h ▸ st_T11
    · exact Option.some.inj h ▸
        (show p1StateP (normE (.lit (kLit14.drop 1) :: p1T 13)) from st_lit14 1 (by decide))
  · rw [show p1T 13 = .ws0 :: .lit kLit9 :: p1T 15 from rfl,
      show kLit9 = 'm' :: kLit9.drop 1 from rfl] at h
    simp only [stepE] at h
    split_ifs at h
    · exact Option.some.inj h ▸ st_T13
    · exact Option.some.inj h ▸
        (show p1StateP (normE (.lit (kLit9.drop 1) :: p1T 15)) from st_lit9 1 (by decide))
  · exact closure_lit_family kConst (p1T 1) st_T1 st_const j hj c q2 h
  · exact closure_lit_family kLit23 (p1T 7) st_T7 st_lit23 j hj c q2 h
  · exact closure_lit_family kLit14 (p1T 13) st_T13 st_lit14 j hj c q2 h
  · exact closure_lit_family kLit9 (p1T 15) st_nil st_lit9 j hj c q2 h

theorem ws_not_word (c : Char) (h : isPySpace c = true) : isPyWord c = false := by
  simp only [isPySpace, Bool.or_eq_true, decide_eq_true_eq] at h
  rcases h with ((((h | h) | h) | h) | h) | h <;> subst h <;> decide

theorem word_not_ws (c : Char) (h : isPyWord c = true) : isPySpace c = false := by
  by_cases hs : isPySpace c = true
  · rw [ws_not_word c hs] at h; cases h
  · exact Bool.not_eq_true _ ▸ hs

theorem dropWhile_append_all {p : Char → Bool} (u v : List Char) (hu : u.all p = true) :
    (u ++ v).dropWhile p = v.dropWhile p := by
  induction u with
  | nil => rfl
  | cons u0 u1 ih =>
    simp only [List.all_cons, Bool.and_eq_true] at hu
    simp only [List.cons_append, List.dropWhile, hu.1]
    exact ih hu.2

theorem takeWhile_append_all {p : Char → Bool} (u v : List Char) (hu : u.all p = true) :
    (u ++ v).takeWhile p = u ++ v.takeWhile p := by
  induction u with
  | nil => rfl
  | cons u0 u1 ih =>
    simp only [List.all_cons, Bool.and_eq_true] at hu
    simp only [List.cons_append, List.takeWhile, hu.1, List.append_eq]
    rw [ih hu.2]

theorem dropWhile_head_neg {p : Char → Bool} (c : Char) (v : List Char) (hc : p c = false) :
    (c :: v).dropWhile p = c :: v := by
  simp [List.dropWhile, hc]

theorem takeWhile_head_neg {p : Char → Bool} (c : Char) (v : List Char) (hc : p c = false) :
    (c :: v).takeWhile p = [] := by
  simp [List.takeWhile, hc]

theorem eatL_self_append (l z : List Char) : eatL l (l ++ z) = some z := by
  have hp : l.isPrefixOf (l ++ z) = true :=
    List.isPrefixOf_iff_prefix.mpr (List.prefix_append l z)
  simp [eatL, hp, List.drop_left]

theorem eatL_some_decomp (l s r : List Char) (h : eatL l s = some r) : s = l ++ r := by
  rw [eatL] at h
  by_cases hp : l.isPrefixOf s = true
  · rw [if_pos hp] at h
    obtain ⟨w, hw⟩ := List.isPrefixOf_iff_prefix.mp hp
    obtain rfl := Option.some.inj h
    rw [← hw, List.drop_left]
  · rw [if_neg hp] at h; cases h

theorem eatL_none_of_not_prefix (l s : List Char) (h : ¬ l <+: s) : eatL l s = none := by
  rw [eatL, if_neg]
  intro hp
  exact h (List.isPrefixOf_iff_prefix.mp hp)

theorem not_prefix_of_take_ne (u v z : List Char) (k : Nat) (hku : k ≤ u.length)
    (hkv : k ≤ v.length) (hne : u.take k ≠ v.take k) : ¬ u <+: v ++ z := by
  intro hp
  obtain ⟨t, ht⟩ := hp
  apply hne
  have h1 : (u ++ t).take k = (v ++ z).take k := by rw [ht]
  rw [List.take_append_eq_append_take, List.take_append_eq_append_take] at h1
  have e1 : k - u.length = 0 := by omega
  have e2 : k - v.length = 0 := by omega
  rw [e1, e2] at h1
  simpa using h1

theorem lit_head_death (l0 : Char) (ls : List Char) (T : List PElem) (x0 : Char)
    (xs : List Char) (hne : ¬ x0 = l0) :
    matchElems (.lit (l0 :: ls) :: T) (x0 :: xs) = none := by
  simp [matchElems, eatL_cons, hne]

theorem lit_two_death (a b : Char) (ls2 : List Char) (T : List PElem)
    (hb1 : isPySpace b = false) (hb2 : ¬ b = 'c') (u v : List Char)
    (hu : u.all isPySpace = true) (hune : u ≠ []) (hv : ∃ v2, v = 'c' :: v2) :
    matchElems (.lit (a :: b :: ls2) :: T) (u ++ v) = none := by
  match u, hune with
  | u0 :: u1, _ =>
    simp only [List.cons_append, matchElems, eatL_cons]
    by_cases ha : u0 = a
    · rw [if_pos ha]
      match u1 with
      | [] =>
        obtain ⟨v2, rfl⟩ := hv
        have hcb : ¬ ('c' = b) := fun hh => hb2 hh.symm
        rw [List.nil_append, eatL_cons, if_neg hcb]
      | w :: u2 =>
        have hw : isPySpace w = true := by
          simp only [List.all_cons, Bool.and_eq_true] at hu
          exact hu.2.1
        have hbw : ¬ (w = b) := fun hh => by rw [hh, hb1] at hw; cases hw
        rw [List.cons_append, eatL_cons, if_neg hbw]
    · rw [if_neg ha]

theorem p1T3_death_ws_word (u : List Char) (hu : u.all isPySpace = true)
    (d : Char) (hd : isPyWord d = true) (v : List Char) :
    matchElems (p1T 3) (u ++ d :: v) = none := by
  have hne : ¬ (d = '\x7b') := fun he => by rw [he] at hd; exact absurd hd (by decide)
  rw [show p1T 3 = .ws0 :: .lit ['\x7b'] :: p1T 5 from rfl]
  simp only [matchElems]
  rw [dropWhile_append_all u _ hu, dropWhile_head_neg d v (word_not_ws d hd)]
  rw [eatL_cons, if_neg hne]

theorem p1T2_death_const (ws1 : List Char) (h1 : ws1.all isPySpace = true) (hn1 : ws1 ≠ [])
    (d : Char) (hd : isPyWord d = true) (wdr Z : List Char) :
    matchElems (p1T 2) ("const".toList ++ (ws1 ++ (d :: (wdr ++ Z)))) = none := by
  rw [show p1T 2 = .wd1 :: p1T 3 from rfl]
  match ws1, hn1 with
  | w0 :: ws1t, _ =>
    have hw0 : isPySpace w0 = true := by
      simp only [List.all_cons, Bool.and_eq_true] at h1
      exact h1.1
    simp only [matchElems]
    rw [takeWhile_append_all "const".toList _ (by decide),
      show (w0 :: ws1t) ++ (d :: (wdr ++ Z)) = w0 :: (ws1t ++ (d :: (wdr ++ Z))) from rfl,
      takeWhile_head_neg w0 _ (ws_not_word w0 hw0)]
    rw [if_neg (by simp)]
    rw [dropWhile_append_all "const".toList _ (by decide),
      dropWhile_head_neg w0 _ (ws_not_word w0 hw0)]
    exact p1T3_death_ws_word (w0 :: ws1t) h1 d hd (wdr ++ Z)


theorem p1Full_death_R1 (ws1 : List Char) (h1 : ws1.all isPySpace = true) (hn1 : ws1 ≠ [])
    (d : Char) (hd : isPyWord d = true) (wdr : List Char) (hwdr : wdr.all isPyWord = true)
    (ws2 : List Char) (h2 : ws2.all isPySpace = true)
    (ws3 : List Char) (h3 : ws3.all isPySpace = true) (Z : List Char) :
    matchElems p1Elems
      ("const".toList ++ (ws1 ++ ((d :: wdr) ++ (ws2 ++ ('\x7b' :: (ws3 ++ ("required super.message".toList ++ Z))))))) = none := by
  have hE : ws1.isEmpty = false := by
    cases ws1
    · exact absurd rfl hn1
    · rfl
  have hdw : (d :: wdr).all isPyWord = true := by
    simp [List.all_cons, hd, hwdr]
  have hQt : (ws2 ++ ('\x7b' :: (ws3 ++ ("required super.message".toList ++ Z)))).takeWhile isPyWord = [] := by
    cases ws2 with
    | nil => exact takeWhile_head_neg _ _ (by decide)
    | cons w2 t2 =>
      have hw2 : isPySpace w2 = true := by
        simp only [List.all_cons, Bool.and_eq_true] at h2
        exact h2.1
      exact takeWhile_head_neg _ _ (ws_not_word w2 hw2)
  have hQd : (ws2 ++ ('\x7b' :: (ws3 ++ ("required super.message".toList ++ Z)))).dropWhile isPyWord = ws2 ++ ('\x7b' :: (ws3 ++ ("required super.message".toList ++ Z))) := by
    cases ws2 with
    | nil => exact dropWhile_head_neg _ _ (by decide)
    | cons w2 t2 =>
      have hw2 : isPySpace w2 = true := by
        simp only [List.all_cons, Bool.and_eq_true] at h2
        exact h2.1
      exact dropWhile_head_neg _ _ (ws_not_word w2 hw2)
  have hA : eatL "const".toList
      ("const".toList ++ (ws1 ++ ((d :: wdr) ++ (ws2 ++ ('\x7b' :: (ws3 ++ ("required super.message".toList ++ Z))))))) =
      some (ws1 ++ ((d :: wdr) ++ (ws2 ++ ('\x7b' :: (ws3 ++ ("required super.message".toList ++ Z)))))) :=
    eatL_self_append _ _
  have htX : ((d :: wdr) ++ (ws2 ++ ('\x7b' :: (ws3 ++ ("required super.message".toList ++ Z))))).takeWhile isPySpace = [] :=
    takeWhile_head_neg d _ (word_not_ws d hd)
  have hdX : ((d :: wdr) ++ (ws2 ++ ('\x7b' :: (ws3 ++ ("required super.message".toList ++ Z))))).dropWhile isPySpace =
      (d :: wdr) ++ (ws2 ++ ('\x7b' :: (ws3 ++ ("required super.message".toList ++ Z)))) :=
    dropWhile_head_neg d _ (word_not_ws d hd)
  have htake1 : (ws1 ++ ((d :: wdr) ++ (ws2 ++ ('\x7b' :: (ws3 ++ ("required super.message".toList ++ Z)))))).takeWhile isPySpace = ws1 := by
    rw [takeWhile_append_all ws1 _ h1, htX, List.append_nil]
  have hdrop1 : (ws1 ++ ((d :: wdr) ++ (ws2 ++ ('\x7b' :: (ws3 ++ ("required super.message".toList ++ Z)))))).dropWhile isPySpace =
      (d :: wdr) ++ (ws2 ++ ('\x7b' :: (ws3 ++ ("required super.message".toList ++ Z)))) := by
    rw [dropWhile_append_all ws1 _ h1, hdX]
  have htake2 : ((d :: wdr) ++ (ws2 ++ ('\x7b' :: (ws3 ++ ("required super.message".toList ++ Z))))).takeWhile isPyWord = d :: wdr := by
    rw [takeWhile_append_all _ _ hdw, hQt, List.append_nil]
  have hdrop2 : ((d :: wdr) ++ (ws2 ++ ('\x7b' :: (ws3 ++ ("required super.message".toList ++ Z))))).dropWhile isPyWord =
      ws2 ++ ('\x7b' :: (ws3 ++ ("required super.message".toList ++ Z))) := by
    rw [dropWhile_append_all _ _ hdw, hQd]
  have hdrop3 : (ws2 ++ ('\x7b' :: (ws3 ++ ("required super.message".toList ++ Z)))).dropWhile isPySpace =
      '\x7b' :: (ws3 ++ ("required super.message".toList ++ Z)) := by
    rw [dropWhile_append_all ws2 _ h2]
    exact dropWhile_head_neg _ _ (by decide)
  have hB : eatL ['\x7b'] ('\x7b' :: (ws3 ++ ("required super.message".toList ++ Z))) =
      some (ws3 ++ ("required super.message".toList ++ Z)) :=
    eatL_self_append _ _
  have hdrop4 : (ws3 ++ ("required super.message".toList ++ Z)).dropWhile isPySpace =
      "required super.message".toList ++ Z := by
    rw [dropWhile_append_all ws3 _ h3]
    exact dropWhile_head_neg 'r' _ (by decide)
  have hC : eatL kLit23 ("required super.message".toList ++ Z) = none :=
    eatL_none_of_not_prefix _ _
      (not_prefix_of_take_ne kLit23 "required super.message".toList Z 10 (by decide) (by decide) (by decide))
  rw [show p1Elems = .lit "const".toList :: .ws1 :: .wd1 :: .ws0 :: .lit ['\x7b'] :: .ws0 :: .lit kLit23 :: p1T 7 from rfl]
  simp only [matchElems, hA, htake1, hdrop1, htake2, hdrop2, hdrop3, hB, hdrop4, hC, hE,
    List.isEmpty_cons, Bool.false_eq_true, if_false]

theorem matchElems_none_accept (q : List PElem) (s : List Char)
    (h : matchElems q s = none) : acceptE q s = false := by
  simp [acceptE, h]

theorem accept_false_none (q : List PElem) (s : List Char)
    (h : acceptE q s = false) : matchElems q s = none := by
  cases he : matchElems q s with
  | none => rfl
  | some r => rw [acceptE, he] at h; cases h

theorem start_death_head (x0 : Char) (xs : List Char) (hne : ¬ x0 = 'c') :
    matchElems p1Elems (x0 :: xs) = none := by
  rw [show p1Elems = .lit ('c' :: "onst".toList) :: p1T 1 from rfl]
  exact lit_head_death 'c' _ _ x0 xs hne

theorem takeWhile_all (p : Char → Bool) (l : List Char) : (l.takeWhile p).all p = true := by
  induction l with
  | nil => rfl
  | cons c t ih =>
    by_cases h : p c = true
    · simp [List.takeWhile, h, ih]
    · simp [List.takeWhile, h]

theorem all_of_suffix (p : Char → Bool) (u l : List Char) (h : u <:+ l)
    (hl : l.all p = true) : u.all p = true := by
  rw [List.all_eq_true] at hl ⊢
  intro x hx
  exact hl x (h.subset hx)

theorem suffix_split {α : Type} (v x y : List α) (h : v <:+ x ++ y) :
    v <:+ y ∨ ∃ w, w <:+ x ∧ v = w ++ y := by
  obtain ⟨u, hu⟩ := h
  rcases List.append_eq_append_iff.mp hu with ⟨a, ha1, ha2⟩ | ⟨c, hc1, hc2⟩
  · exact Or.inr ⟨a, ⟨u, ha1.symm⟩, ha2⟩
  · exact Or.inl ⟨c, hc2.symm⟩

theorem ws_skip_lit_death (l0 : Char) (ls : List Char) (T : List PElem)
    (u : List Char) (hu : u.all isPySpace = true) (v2 : List Char)
    (hne : ¬ 'c' = l0) :
    matchElems (.ws0 :: .lit (l0 :: ls) :: T) (u ++ 'c' :: v2) = none := by
  simp only [matchElems]
  rw [dropWhile_append_all u _ hu, dropWhile_head_neg 'c' _ (by decide)]
  rw [eatL_cons, if_neg hne]

/-- No residual live state of the pattern 1 machine survives the text
of a pattern 1 replacement, whatever follows it. -/
theorem death_R1 (q : List PElem) (hq : p1StateP q) (hqn : q ≠ [])
    (ws1 : List Char) (h1 : ws1.all isPySpace = true) (hn1 : ws1 ≠ [])
    (d : Char) (hd : isPyWord d = true) (wdr : List Char) (hwdr : wdr.all isPyWord = true)
    (ws2 : List Char) (h2 : ws2.all isPySpace = true)
    (ws3 : List Char) (h3 : ws3.all isPySpace = true) (Z : List Char) :
    matchElems q ("const".toList ++ (ws1 ++ ((d :: wdr) ++ (ws2 ++ ('\x7b' :: (ws3 ++ ("required super.message".toList ++ Z))))))) = none := by
  have hTXT : "const".toList ++ (ws1 ++ ((d :: wdr) ++ (ws2 ++ ('\x7b' :: (ws3 ++ ("required super.message".toList ++ Z)))))) = 'c' :: ("onst".toList ++ (ws1 ++ ((d :: wdr) ++ (ws2 ++ ('\x7b' :: (ws3 ++ ("required super.message".toList ++ Z))))))) := rfl
  rcases hq with h | h | h | h | h | h | h | h | h | h | ⟨j, hj, h⟩ | ⟨j, hj, h⟩ | ⟨j, hj, h⟩ | ⟨j, hj, h⟩
  · exact absurd h hqn
  · subst h
    rw [show p1T 1 = .ws1 :: p1T 2 from rfl, hTXT]
    simp only [matchElems]
    rw [takeWhile_head_neg 'c' _ (by decide)]
    simp
  · subst h
    simp only [matchElems]
    rw [hTXT, dropWhile_head_neg 'c' _ (by decide), ← hTXT]
    exact p1T2_death_const ws1 h1 hn1 d hd wdr _
  · subst h
    simp only [matchElems]
    rw [dropWhile_append_all "const".toList _ (by decide)]
    match ws1, hn1 with
    | w0 :: ws1t, _ =>
      have hw0 : isPySpace w0 = true := by
        simp only [List.all_cons, Bool.and_eq_true] at h1
        exact h1.1
      rw [show (w0 :: ws1t) ++ ((d :: wdr) ++ (ws2 ++ ('\x7b' :: (ws3 ++ ("required super.message".toList ++ Z))))) = w0 :: (ws1t ++ ((d :: wdr) ++ (ws2 ++ ('\x7b' :: (ws3 ++ ("required super.message".toList ++ Z)))))) from rfl,
        dropWhile_head_neg w0 _ (ws_not_word w0 hw0)]
      exact p1T3_death_ws_word (w0 :: ws1t) h1 d hd _
  · subst h
    rw [show p1T 3 = .ws0 :: .lit ('\x7b' :: []) :: p1T 5 from rfl, hTXT]
    exact ws_skip_lit_death '\x7b' [] (p1T 5) [] (by decide) _ (by decide)
  · subst h
    rw [show p1T 5 = .ws0 :: .lit ('r' :: "equired String message".toList) :: p1T 7 from rfl, hTXT]
    exact ws_skip_lit_death 'r' _ (p1T 7) [] (by decide) _ (by decide)
  · subst h
    rw [show p1T 7 = .ws0 :: .lit ('\x7d' :: []) :: p1T 9 from rfl, hTXT]
    exact ws_skip_lit_death '\x7d' [] (p1T 9) [] (by decide) _ (by decide)
  · subst h
    rw [show p1T 9 = .ws0 :: .lit (':' :: []) :: p1T 11 from rfl, hTXT]
    exact ws_skip_lit_death ':' [] (p1T 11) [] (by decide) _ (by decide)
  · subst h
    rw [show p1T 11 = .ws0 :: .lit ('s' :: "uper(message:".toList) :: p1T 13 from rfl, hTXT]
    exact ws_skip_lit_death 's' _ (p1T 13) [] (by decide) _ (by decide)
  · subst h
    rw [show p1T 13 = .ws0 :: .lit ('m' :: "essage);".toList) :: p1T 15 from rfl, hTXT]
    exact ws_skip_lit_death 'm' _ (p1T 15) [] (by decide) _ (by decide)
  · subst h
    by_cases hj0 : j = 0
    · subst hj0
      rw [List.drop_zero]
      exact p1Full_death_R1 ws1 h1 hn1 d hd wdr hwdr ws2 h2 ws3 h3 Z
    · have hj1 : 0 < j := Nat.pos_of_ne_zero hj0
      rw [List.drop_eq_getElem_cons hj, hTXT]
      apply lit_head_death
      have hall : ∀ i, (hi : i < kConst.length) → 0 < i → ¬ ('c' = kConst.get ⟨i, hi⟩) := by decide
      exact hall j hj hj1
  · subst h
    rw [List.drop_eq_getElem_cons hj, hTXT]
    apply lit_head_death
    have hall : ∀ i, (hi : i < kLit23.length) → ¬ ('c' = kLit23.get ⟨i, hi⟩) := by decide
    exact hall j hj
  · subst h
    rw [List.drop_eq_getElem_cons hj, hTXT]
    apply lit_head_death
    have hall : ∀ i, (hi : i < kLit14.length) → ¬ ('c' = kLit14.get ⟨i, hi⟩) := by decide
    exact hall j hj
  · subst h
    rw [List.drop_eq_getElem_cons hj, hTXT]
    apply lit_head_death
    have hall : ∀ i, (hi : i < kLit9.length) → ¬ ('c' = kLit9.get ⟨i, hi⟩) := by decide
    exact hall j hj

/-- Inversion of a successful pattern 1 match: the consumed prefix of
the text and the produced replacement, in fully decomposed form. -/
theorem matchP1At_some_inv (s repl rest : List Char)
    (h : matchP1At s = some (repl, rest)) :
    ∃ ws1 d wdr ws2 ws3 ws4 ws5 ws6 ws7,
      ws1.all isPySpace = true ∧ ws1 ≠ [] ∧ isPyWord d = true ∧
      wdr.all isPyWord = true ∧ ws2.all isPySpace = true ∧
      ws3.all isPySpace = true ∧ ws4.all isPySpace = true ∧
      repl = "const".toList ++ (ws1 ++ ((d :: wdr) ++ (ws2 ++ ('\x7b' :: (ws3 ++ ("required super.message".toList ++ (ws4 ++ ('\x7d' :: (';' :: []))))))))) ∧
      s = "const".toList ++ (ws1 ++ ((d :: wdr) ++ (ws2 ++ ('\x7b' :: (ws3 ++ ("required String message".toList ++ (ws4 ++ ('\x7d' :: (ws5 ++ (':' :: (ws6 ++ ("super(message:".toList ++ (ws7 ++ ("message);".toList ++ rest)))))))))))))) := by
  unfold matchP1At at h
  simp only [List.span_eq_take_drop] at h
  cases h0 : eatL "const".toList s with
  | none => rw [h0] at h; cases h
  | some r1 =>
  simp only [h0] at h
  by_cases hg1 : (r1.takeWhile isPySpace).isEmpty = true
  · rw [if_pos hg1] at h; cases h
  · rw [if_neg hg1] at h
    by_cases hg2 : ((r1.dropWhile isPySpace).takeWhile isPyWord).isEmpty = true
    · rw [if_pos hg2] at h; cases h
    · rw [if_neg hg2] at h
      cases h3 : eatL ['\x7b'] (((r1.dropWhile isPySpace).dropWhile isPyWord).dropWhile isPySpace) with
      | none => rw [h3] at h; cases h
      | some r5 =>
      simp only [h3] at h
      cases h4 : eatL "required String message".toList (r5.dropWhile isPySpace) with
      | none => rw [h4] at h; cases h
      | some r7 =>
      simp only [h4] at h
      cases h5 : eatL ['\x7d'] (r7.dropWhile isPySpace) with
      | none => rw [h5] at h; cases h
      | some r9 =>
      simp only [h5] at h
      cases h6 : eatL [':'] (r9.dropWhile isPySpace) with
      | none => rw [h6] at h; cases h
      | some r11 =>
      simp only [h6] at h
      cases h7 : eatL "super(message:".toList (r11.dropWhile isPySpace) with
      | none => rw [h7] at h; cases h
      | some r13 =>
      simp only [h7] at h
      cases h8 : eatL "message);".toList (r13.dropWhile isPySpace) with
      | none => rw [h8] at h; cases h
      | some r15 =>
      simp only [h8, Option.some.injEq, Prod.mk.injEq] at h
      obtain ⟨hrepl, hrest⟩ := h
      obtain ⟨d, wdr, hdw⟩ : ∃ d wdr, (r1.dropWhile isPySpace).takeWhile isPyWord = d :: wdr := by
        cases hq : (r1.dropWhile isPySpace).takeWhile isPyWord with
        | nil => exact absurd (by rw [hq]; rfl) hg2
        | cons d wdr => exact ⟨d, wdr, rfl⟩
      have hdall : (d :: wdr).all isPyWord = true := by
        rw [← hdw]; exact takeWhile_all _ _
      have hd : isPyWord d = true := by
        simp only [List.all_cons, Bool.and_eq_true] at hdall; exact hdall.1
      have hwdr : wdr.all isPyWord = true := by
        simp only [List.all_cons, Bool.and_eq_true] at hdall; exact hdall.2
      refine ⟨r1.takeWhile isPySpace, d, wdr,
        ((r1.dropWhile isPySpace).dropWhile isPyWord).takeWhile isPySpace,
        r5.takeWhile isPySpace, r7.takeWhile isPySpace, r9.takeWhile isPySpace,
        r11.takeWhile isPySpace, r13.takeWhile isPySpace,
        takeWhile_all _ _, ?_, hd, hwdr, takeWhile_all _ _, takeWhile_all _ _, takeWhile_all _ _, ?_, ?_⟩
      · intro he
        exact hg1 (by rw [he]; rfl)
      · rw [← hrepl, hdw]
        simp [List.append_assoc]
      · set W1 := r1.takeWhile isPySpace
        set D1 := r1.dropWhile isPySpace
        set W2 := D1.takeWhile isPyWord
        set D2 := D1.dropWhile isPyWord
        set W3 := D2.takeWhile isPySpace
        set D3 := D2.dropWhile isPySpace
        set W4 := r5.takeWhile isPySpace
        set D4 := r5.dropWhile isPySpace
        set W5 := r7.takeWhile isPySpace
        set D5 := r7.dropWhile isPySpace
        set W6 := r9.takeWhile isPySpace
        set D6 := r9.dropWhile isPySpace
        set W7 := r11.takeWhile isPySpace
        set D7 := r11.dropWhile isPySpace
        set W8 := r13.takeWhile isPySpace
        set D8 := r13.dropWhile isPySpace
        have e0 : s = "const".toList ++ r1 := eatL_some_decomp _ _ _ h0
        have e1 : r1 = W1 ++ D1 := (List.takeWhile_append_dropWhile _ _).symm
        have e2 : D1 = W2 ++ D2 := (List.takeWhile_append_dropWhile _ _).symm
        have e3 : D2 = W3 ++ D3 := (List.takeWhile_append_dropWhile _ _).symm
        have e4 : D3 = ['\x7b'] ++ r5 := eatL_some_decomp _ _ _ h3
        have e5 : r5 = W4 ++ D4 := (List.takeWhile_append_dropWhile _ _).symm
        have e6 : D4 = "required String message".toList ++ r7 := eatL_some_decomp _ _ _ h4
        have e7 : r7 = W5 ++ D5 := (List.takeWhile_append_dropWhile _ _).symm
        have e8 : D5 = ['\x7d'] ++ r9 := eatL_some_decomp _ _ _ h5
        have e9 : r9 = W6 ++ D6 := (List.takeWhile_append_dropWhile _ _).symm
        have e10 : D6 = [':'] ++ r11 := eatL_some_decomp _ _ _ h6
        have e11 : r11 = W7 ++ D7 := (List.takeWhile_append_dropWhile _ _).symm
        have e12 : D7 = "super(message:".toList ++ r13 := eatL_some_decomp _ _ _ h7
        have e13 : r13 = W8 ++ D8 := (List.takeWhile_append_dropWhile _ _).symm
        have e14 : D8 = "message);".toList ++ rest := by
          rw [← hrest]; exact eatL_some_decomp _ _ _ h8
        rw [e0, e1, e2, hdw, e3, e4, e5, e6, e7, e8, e9, e10, e11, e12, e13, e14]
        simp [List.append_assoc]

theorem matchP1At_consume (s repl rest : List Char)
    (h : matchP1At s = some (repl, rest)) : rest.length < s.length := by
  obtain ⟨ws1, d, wdr, ws2, ws3, ws4, ws5, ws6, ws7, _, _, _, _, _, _, _, _, hs⟩ :=
    matchP1At_some_inv s repl rest h
  rw [hs]
  simp only [List.length_append, List.length_cons]
  omega

theorem scanSub_fuel (m : List Char → Option (List Char × List Char))
    (hm : ∀ c t r rest, m (c :: t) = some (r, rest) → rest.length ≤ t.length) :
    ∀ n (s : List Char), s.length ≤ n → scanSub m n s = scanSub m s.length s := by
  intro n
  induction n using Nat.strong_induction_on with
  | _ n ih =>
    intro s hs
    cases n with
    | zero =>
      cases s with
      | nil => rfl
      | cons c t => simp at hs
    | succ k =>
      cases s with
      | nil => rfl
      | cons c t =>
        have hts : t.length ≤ k := by simpa using hs
        simp only [List.length_cons, scanSub]
        cases hmc : m (c :: t) with
        | none =>
          rw [ih k (Nat.lt_succ_self k) t hts]
        | some pr =>
          obtain ⟨r, rest⟩ := pr
          have hr : rest.length ≤ t.length := hm c t r rest hmc
          show r ++ scanSub m k rest = r ++ scanSub m t.length rest
          rw [ih k (Nat.lt_succ_self k) rest (le_trans hr hts),
            ih t.length (Nat.lt_succ_of_le hts) rest hr]

theorem sub1_cons_none (c : Char) (t : List Char) (h : matchP1At (c :: t) = none) :
    sub1 (c :: t) = c :: sub1 t := by
  simp only [sub1, applySub, List.length_cons, scanSub, h]

theorem sub1_cons_some (c : Char) (t repl rest : List Char)
    (h : matchP1At (c :: t) = some (repl, rest)) :
    sub1 (c :: t) = repl ++ sub1 rest := by
  have hr : rest.length ≤ t.length := by
    have := matchP1At_consume (c :: t) repl rest h
    simp only [List.length_cons] at this
    omega
  have hcons : ∀ c2 t2 r2 rest2, matchP1At (c2 :: t2) = some (r2, rest2) → rest2.length ≤ t2.length := by
    intro c2 t2 r2 rest2 h2
    have := matchP1At_consume (c2 :: t2) r2 rest2 h2
    simp only [List.length_cons] at this
    omega
  simp only [sub1, applySub, List.length_cons, scanSub, h]
  rw [scanSub_fuel matchP1At hcons t.length rest hr]

/-- Transport of a live pattern 1 machine state across substitution 1:
a residual state that accepts the rewritten text accepted the original
text. -/
theorem T1_transport : ∀ n (s : List Char), s.length ≤ n →
    ∀ q, p1StateP q → acceptE q (sub1 s) = true → acceptE q s = true := by
  intro n
  induction n using Nat.strong_induction_on with
  | _ n ih =>
    intro s hs q hq hacc
    cases n with
    | zero =>
      cases s with
      | nil => exact hacc
      | cons c t => simp at hs
    | succ k =>
      cases s with
      | nil => exact hacc
      | cons c t =>
        have hts : t.length ≤ k := by simpa using hs
        cases hmc : matchP1At (c :: t) with
        | none =>
          rw [sub1_cons_none c t hmc, acceptE_cons] at hacc
          rw [acceptE_cons]
          rcases Bool.or_eq_true_iff.mp hacc with hn | hstep
          · rw [hn]; rfl
          · cases hq2 : stepE q c with
            | none => rw [hq2] at hstep; cases hstep
            | some q2 =>
              rw [hq2] at hstep
              have hstep2 : acceptE q2 (sub1 t) = true := hstep
              have hq2P : p1StateP q2 := p1StateP_step q c q2 hq hq2
              have hQ : acceptE q2 t = true := ih k (Nat.lt_succ_self k) t hts q2 hq2P hstep2
              show (nullE q || acceptE q2 t) = true
              rw [hQ]
              simp
        | some pr =>
          obtain ⟨repl, rest⟩ := pr
          by_cases hqn : q = []
          · subst hqn
            rfl
          · obtain ⟨ws1, d, wdr, ws2, ws3, ws4, ws5, ws6, ws7,
              h1, hn1, hd, hwdr, h2, h3, h4, hrepl, hstext⟩ :=
              matchP1At_some_inv (c :: t) repl rest hmc
            rw [sub1_cons_some c t repl rest hmc] at hacc
            have hdeath : matchElems q (repl ++ sub1 rest) = none := by
              rw [hrepl]
              have := death_R1 q hq hqn ws1 h1 hn1 d hd wdr hwdr ws2 h2 ws3 h3
                ((ws4 ++ ('\x7d' :: (';' :: []))) ++ sub1 rest)
              rw [show ("const".toList ++ (ws1 ++ ((d :: wdr) ++ (ws2 ++ ('\x7b' :: (ws3 ++ ("required super.message".toList ++ (ws4 ++ ('\x7d' :: (';' :: [])))))))))) ++ sub1 rest
                  = "const".toList ++ (ws1 ++ ((d :: wdr) ++ (ws2 ++ ('\x7b' :: (ws3 ++ ("required super.message".toList ++ ((ws4 ++ ('\x7d' :: (';' :: []))) ++ sub1 rest))))))) by
                simp [List.append_assoc]]
              exact this
            rw [matchElems_none_accept q _ hdeath] at hacc
            cases hacc

theorem p1_after_const_brace_death (ws2 : List Char) (h2 : ws2.all isPySpace = true)
    (Y : List Char) :
    matchElems p1Elems ("const".toList ++ (ws2 ++ ('\x7b' :: Y))) = none := by
  have hA : eatL "const".toList ("const".toList ++ (ws2 ++ ('\x7b' :: Y)))
      = some (ws2 ++ ('\x7b' :: Y)) := eatL_self_append _ _
  have htk : (ws2 ++ ('\x7b' :: Y)).takeWhile isPySpace = ws2 := by
    rw [takeWhile_append_all ws2 _ h2, takeWhile_head_neg '\x7b' _ (by decide), List.append_nil]
  have hdr : (ws2 ++ ('\x7b' :: Y)).dropWhile isPySpace = '\x7b' :: Y := by
    rw [dropWhile_append_all ws2 _ h2]
    exact dropWhile_head_neg _ _ (by decide)
  have htw : ('\x7b' :: Y).takeWhile isPyWord = [] := takeWhile_head_neg _ _ (by decide)
  rw [show p1Elems = .lit "const".toList :: .ws1 :: .wd1 :: p1T 3 from rfl]
  simp only [matchElems, hA, htk, hdr]
  by_cases hws2 : ws2.isEmpty = true
  · rw [if_pos hws2]
  · rw [if_neg hws2]
    simp [htw]

/-- A match of pattern 1 cannot start inside a word run that is
followed by optional whitespace and an opening brace. -/
theorem wdRegion_death (u : List Char) (hu : u.all isPyWord = true)
    (ws2 : List Char) (h2 : ws2.all isPySpace = true) (Y : List Char) :
    matchElems p1Elems (u ++ (ws2 ++ ('\x7b' :: Y))) = none := by
  cases heq : eatL "const".toList (u ++ (ws2 ++ ('\x7b' :: Y))) with
  | none =>
    rw [show p1Elems = .lit "const".toList :: .ws1 :: .wd1 :: p1T 3 from rfl]
    simp only [matchElems]
    rw [heq]
  | some r1 =>
    have hdec := eatL_some_decomp _ _ _ heq
    have hpre : "const".toList <+: u ++ (ws2 ++ ('\x7b' :: Y)) := ⟨r1, hdec.symm⟩
    rcases prefix_append_split _ u _ hpre with hcu | ⟨huc, hw⟩
    · obtain ⟨u2, hu2⟩ := hcu
      have h5 : "const".toList ++ (u2 ++ (ws2 ++ ('\x7b' :: Y))) = "const".toList ++ r1 := by
        rw [← List.append_assoc, hu2]
        exact hdec
      have hr1 : u2 ++ (ws2 ++ ('\x7b' :: Y)) = r1 := by
        simpa using h5
      cases u2 with
      | nil =>
        rw [← hu2]
        simp only [List.append_nil]
        exact p1_after_const_brace_death ws2 h2 Y
      | cons w0 u3 =>
        have hw0 : isPyWord w0 = true := by
          have hmem : w0 ∈ u := by rw [← hu2]; simp
          exact List.all_eq_true.mp hu w0 hmem
        rw [show p1Elems = .lit "const".toList :: .ws1 :: .wd1 :: p1T 3 from rfl]
        simp only [matchElems, heq]
        rw [← hr1, show ((w0 :: u3) ++ (ws2 ++ ('\x7b' :: Y)))
            = w0 :: (u3 ++ (ws2 ++ ('\x7b' :: Y))) from rfl,
          takeWhile_head_neg w0 _ (word_not_ws w0 hw0)]
        simp
    · by_cases hlen : 5 ≤ u.length
      · have hLc : ("const".toList).length = 5 := by decide
        have hle := huc.length_le
        rw [hLc] at hle
        have hueq : u = "const".toList := huc.eq_of_length (by rw [hLc]; omega)
        rw [hueq]
        exact p1_after_const_brace_death ws2 h2 Y
      · push_neg at hlen
        have hj : u.length < kConst.length := by
          have : kConst.length = 5 := by decide
          omega
        rw [show "const".toList = kConst from rfl, List.drop_eq_getElem_cons hj] at hw
        have hg : isPyWord (kConst.get ⟨u.length, hj⟩) = true := by
          have hall : ∀ i, (hi : i < kConst.length) → isPyWord (kConst.get ⟨i, hi⟩) = true := by decide
          exact hall u.length hj
        obtain ⟨tt, htt⟩ := hw
        cases ws2 with
        | nil =>
          rw [List.nil_append, List.cons_append] at htt
          injection htt with hgb htail
          have hgb2 : kConst.get ⟨u.length, hj⟩ = '\x7b' := hgb
          rw [hgb2] at hg
          exact absurd hg (by decide)
        | cons s2 t2 =>
          rw [List.cons_append] at htt
          injection htt with hgs htail
          have hgs2 : kConst.get ⟨u.length, hj⟩ = s2 := hgs
          have hs2 : isPySpace s2 = true := by
            simp only [List.all_cons, Bool.and_eq_true] at h2
            exact h2.1
          rw [hgs2, ws_not_word s2 hs2] at hg
          cases hg

theorem ws_run_suffix_death (w1 : List Char) (hall : w1.all isPySpace = true)
    (rest X : List Char) (hne : w1 ≠ []) :
    matchElems p1Elems ((w1 ++ rest) ++ X) = none := by
  cases w1 with
  | nil => exact absurd rfl hne
  | cons c0 t0 =>
    have hc0 : isPySpace c0 = true := by
      simp only [List.all_cons, Bool.and_eq_true] at hall
      exact hall.1
    rw [List.cons_append, List.cons_append]
    exact start_death_head c0 _ (fun he => by rw [he] at hc0; exact absurd hc0 (by decide))

theorem lit_run_suffix_death (L : List Char)
    (hclit : ∀ i, (hi : i < L.length) → ¬ L.get ⟨i, hi⟩ = 'c')
    (w1 rest X : List Char) (hw1 : w1 <:+ L) (hne : w1 ≠ []) :
    matchElems p1Elems ((w1 ++ rest) ++ X) = none := by
  obtain ⟨k, hk, hkeq⟩ := suffix_eq_drop w1 L hw1 hne
  rw [hkeq, List.drop_eq_getElem_cons hk, List.cons_append, List.cons_append]
  exact start_death_head _ _ (hclit k hk)

/-- A match of pattern 1 cannot start at any nonempty suffix of a
pattern 1 replacement, whatever text follows the replacement. -/
theorem R1_suffix_death (ws1 : List Char) (h1 : ws1.all isPySpace = true) (hn1 : ws1 ≠ [])
    (d : Char) (hd : isPyWord d = true) (wdr : List Char) (hwdr : wdr.all isPyWord = true)
    (ws2 : List Char) (h2 : ws2.all isPySpace = true)
    (ws3 : List Char) (h3 : ws3.all isPySpace = true)
    (ws4 : List Char) (h4 : ws4.all isPySpace = true)
    (w X : List Char) (hwne : w ≠ [])
    (hw : w <:+ ("const".toList ++ (ws1 ++ ((d :: wdr) ++ (ws2 ++ ('\x7b' :: (ws3 ++ ("required super.message".toList ++ (ws4 ++ ('\x7d' :: (';' :: []))))))))))) :
    matchElems p1Elems (w ++ X) = none := by
  have d9 : ∀ w2 X2 : List Char, w2 <:+ (';' :: []) → w2 ≠ [] →
      matchElems p1Elems (w2 ++ X2) = none := by
    intro w2 X2 hsuf hne
    rcases List.suffix_cons_iff.mp hsuf with he | he
    · rw [he, List.cons_append]
      exact start_death_head ';' _ (by decide)
    · have h0 : w2 = [] := by simpa using he
      exact absurd h0 hne
  have d8 : ∀ w2 X2 : List Char, w2 <:+ ('\x7d' :: (';' :: [])) → w2 ≠ [] →
      matchElems p1Elems (w2 ++ X2) = none := by
    intro w2 X2 hsuf hne
    rcases List.suffix_cons_iff.mp hsuf with he | he
    · rw [he, List.cons_append]
      exact start_death_head '\x7d' _ (by decide)
    · exact d9 w2 X2 he hne
  have d7 : ∀ w2 X2 : List Char, w2 <:+ (ws4 ++ ('\x7d' :: (';' :: []))) → w2 ≠ [] →
      matchElems p1Elems (w2 ++ X2) = none := by
    intro w2 X2 hsuf hne
    rcases suffix_split w2 _ _ hsuf with he | ⟨w1, hw1, heq⟩
    · exact d8 w2 X2 he hne
    · by_cases hne1 : w1 = []
      · subst hne1
        rw [heq, List.nil_append]
        exact d8 _ X2 (List.suffix_refl _) (by simp)
      · rw [heq]
        exact ws_run_suffix_death w1 (all_of_suffix _ _ _ hw1 h4) _ X2 hne1
  have d6 : ∀ w2 X2 : List Char, w2 <:+ ("required super.message".toList ++ (ws4 ++ ('\x7d' :: (';' :: [])))) → w2 ≠ [] →
      matchElems p1Elems (w2 ++ X2) = none := by
    intro w2 X2 hsuf hne
    rcases suffix_split w2 _ _ hsuf with he | ⟨w1, hw1, heq⟩
    · exact d7 w2 X2 he hne
    · by_cases hne1 : w1 = []
      · subst hne1
        rw [heq, List.nil_append]
        exact d7 _ X2 (List.suffix_refl _) (by simp)
      · rw [heq]
        have hclit : ∀ i, (hi : i < ("required super.message".toList).length) →
            ¬ ("required super.message".toList).get ⟨i, hi⟩ = 'c' := by decide
        exact lit_run_suffix_death _ hclit w1 _ X2 hw1 hne1
  have d5 : ∀ w2 X2 : List Char, w2 <:+ (ws3 ++ ("required super.message".toList ++ (ws4 ++ ('\x7d' :: (';' :: []))))) → w2 ≠ [] →
      matchElems p1Elems (w2 ++ X2) = none := by
    intro w2 X2 hsuf hne
    rcases suffix_split w2 _ _ hsuf with he | ⟨w1, hw1, heq⟩
    · exact d6 w2 X2 he hne
    · by_cases hne1 : w1 = []
      · subst hne1
        rw [heq, List.nil_append]
        exact d6 _ X2 (List.suffix_refl _) (by simp)
      · rw [heq]
        exact ws_run_suffix_death w1 (all_of_suffix _ _ _ hw1 h3) _ X2 hne1
  have d4 : ∀ w2 X2 : List Char, w2 <:+ ('\x7b' :: (ws3 ++ ("required super.message".toList ++ (ws4 ++ ('\x7d' :: (';' :: [])))))) → w2 ≠ [] →
      matchElems p1Elems (w2 ++ X2) = none := by
    intro w2 X2 hsuf hne
    rcases List.suffix_cons_iff.mp hsuf with he | he
    · rw [he, List.cons_append]
      exact start_death_head '\x7b' _ (by decide)
    · exact d5 w2 X2 he hne
  have d3 : ∀ w2 X2 : List Char, w2 <:+ (ws2 ++ ('\x7b' :: (ws3 ++ ("required super.message".toList ++ (ws4 ++ ('\x7d' :: (';' :: []))))))) → w2 ≠ [] →
      matchElems p1Elems (w2 ++ X2) = none := by
    intro w2 X2 hsuf hne
    rcases suffix_split w2 _ _ hsuf with he | ⟨w1, hw1, heq⟩
    · exact d4 w2 X2 he hne
    · by_cases hne1 : w1 = []
      · subst hne1
        rw [heq, List.nil_append]
        exact d4 _ X2 (List.suffix_refl _) (by simp)
      · rw [heq]
        exact ws_run_suffix_death w1 (all_of_suffix _ _ _ hw1 h2) _ X2 hne1
  have d2 : ∀ w2 X2 : List Char, w2 <:+ ((d :: wdr) ++ (ws2 ++ ('\x7b' :: (ws3 ++ ("required super.message".toList ++ (ws4 ++ ('\x7d' :: (';' :: [])))))))) → w2 ≠ [] →
      matchElems p1Elems (w2 ++ X2) = none := by
    intro w2 X2 hsuf hne
    rcases suffix_split w2 _ _ hsuf with he | ⟨w1, hw1, heq⟩
    · exact d3 w2 X2 he hne
    · by_cases hne1 : w1 = []
      · subst hne1
        rw [heq, List.nil_append]
        exact d3 _ X2 (List.suffix_refl _) (by simp [hn1])
      · have hallw : w1.all isPyWord = true := by
          refine all_of_suffix _ _ _ hw1 ?_
          simp [List.all_cons, hd, hwdr]
        rw [heq, show (w1 ++ (ws2 ++ ('\x7b' :: (ws3 ++ ("required super.message".toList ++ (ws4 ++ ('\x7d' :: (';' :: [])))))))) ++ X2
            = w1 ++ (ws2 ++ ('\x7b' :: ((ws3 ++ ("required super.message".toList ++ (ws4 ++ ('\x7d' :: (';' :: []))))) ++ X2))) from by simp [List.append_assoc]]
        exact wdRegion_death w1 hallw ws2 h2 _
  have d1 : ∀ w2 X2 : List Char, w2 <:+ (ws1 ++ ((d :: wdr) ++ (ws2 ++ ('\x7b' :: (ws3 ++ ("required super.message".toList ++ (ws4 ++ ('\x7d' :: (';' :: []))))))))) → w2 ≠ [] →
      matchElems p1Elems (w2 ++ X2) = none := by
    intro w2 X2 hsuf hne
    rcases suffix_split w2 _ _ hsuf with he | ⟨w1, hw1, heq⟩
    · exact d2 w2 X2 he hne
    · by_cases hne1 : w1 = []
      · subst hne1
        rw [heq, List.nil_append]
        exact d2 _ X2 (List.suffix_refl _) (by simp)
      · rw [heq]
        exact ws_run_suffix_death w1 (all_of_suffix _ _ _ hw1 h1) _ X2 hne1
  rcases suffix_split w _ _ hw with he | ⟨w1, hw1, heq⟩
  · exact d1 w X he hwne
  · by_cases hne1 : w1 = []
    · subst hne1
      rw [heq, List.nil_append]
      exact d1 _ X (List.suffix_refl _) (fun hc => hn1 (List.append_eq_nil.mp hc).1)
    · obtain ⟨k, hk, hkeq⟩ := suffix_eq_drop w1 _ hw1 hne1
      by_cases hk0 : k = 0
      · subst hk0
        rw [heq, hkeq, List.drop_zero]
        rw [show ("const".toList ++ (ws1 ++ ((d :: wdr) ++ (ws2 ++ ('\x7b' :: (ws3 ++ ("required super.message".toList ++ (ws4 ++ ('\x7d' :: (';' :: [])))))))))) ++ X
            = "const".toList ++ (ws1 ++ ((d :: wdr) ++ (ws2 ++ ('\x7b' :: (ws3 ++ ("required super.message".toList ++ (ws4 ++ ('\x7d' :: (';' :: X))))))))) from by simp [List.append_assoc]]
        exact p1Full_death_R1 ws1 h1 hn1 d hd wdr hwdr ws2 h2 ws3 h3 _
      · have hkpos : 0 < k := Nat.pos_of_ne_zero hk0
        have hkc : k < kConst.length := hk
        rw [heq, hkeq, show "const".toList = kConst from rfl,
          List.drop_eq_getElem_cons hkc, List.cons_append, List.cons_append]
        apply start_death_head
        have hall : ∀ i, (hi : i < kConst.length) → 0 < i → ¬ (kConst.get ⟨i, hi⟩ = 'c') := by decide
        exact hall k hkc hkpos

/-- After substitution 1, no suffix of the output is accepted by the
pattern 1 machine: the first pass leaves no pattern 1 match anywhere. -/
theorem N1_noP1_sub1 : ∀ n (s : List Char), s.length ≤ n →
    ∀ v, v <:+ sub1 s → acceptE p1Elems v = false := by
  intro n
  induction n using Nat.strong_induction_on with
  | _ n ih =>
    intro s hs v hv
    cases n with
    | zero =>
      cases s with
      | nil =>
        have hv2 : v = [] := by simpa [sub1, applySub, scanSub] using hv
        rw [hv2]
        decide
      | cons c t => simp at hs
    | succ k =>
      cases s with
      | nil =>
        have hv2 : v = [] := by simpa [sub1, applySub, scanSub] using hv
        rw [hv2]
        decide
      | cons c t =>
        have hts : t.length ≤ k := by simpa using hs
        cases hmc : matchP1At (c :: t) with
        | none =>
          rw [sub1_cons_none c t hmc] at hv
          rcases List.suffix_cons_iff.mp hv with he | he
          · subst he
            cases hacc : acceptE p1Elems (c :: sub1 t) with
            | false => rfl
            | true =>
              exfalso
              rw [acceptE_cons] at hacc
              rcases Bool.or_eq_true_iff.mp hacc with hn | hstep
              · exact absurd hn (by decide)
              · cases hq2 : stepE p1Elems c with
                | none => rw [hq2] at hstep; cases hstep
                | some q2 =>
                  rw [hq2] at hstep
                  have hstep2 : acceptE q2 (sub1 t) = true := hstep
                  have hq2P : p1StateP q2 := p1StateP_step p1Elems c q2 p1Elems_state hq2
                  have hQ : acceptE q2 t = true :=
                    T1_transport t.length t (le_refl _) q2 hq2P hstep2
                  have hfull : acceptE p1Elems (c :: t) = true := by
                    rw [acceptE_cons, hq2]
                    show (nullE p1Elems || acceptE q2 t) = true
                    rw [hQ]
                    simp
                  have hnone : matchElems p1Elems (c :: t) = none := (matchP1At_none_iff _).mp hmc
                  rw [matchElems_none_accept _ _ hnone] at hfull
                  cases hfull
          · exact ih k (Nat.lt_succ_self k) t hts v he
        | some pr =>
          obtain ⟨repl, rest⟩ := pr
          obtain ⟨ws1, d, wdr, ws2, ws3, ws4, ws5, ws6, ws7,
            h1, hn1, hd, hwdr, h2, h3, h4, hrepl, hstext⟩ :=
            matchP1At_some_inv (c :: t) repl rest hmc
          rw [sub1_cons_some c t repl rest hmc] at hv
          have hrl : rest.length ≤ k := by
            have := matchP1At_consume (c :: t) repl rest hmc
            simp only [List.length_cons] at this
            omega
          rcases suffix_split v repl (sub1 rest) hv with he | ⟨w, hwsub, heq⟩
          · exact ih k (Nat.lt_succ_self k) rest hrl v he
          · by_cases hwe : w = []
            · subst hwe
              rw [List.nil_append] at heq
              rw [heq]
              exact ih k (Nat.lt_succ_self k) rest hrl _ (List.suffix_refl _)
            · rw [heq]
              apply matchElems_none_accept
              rw [hrepl] at hwsub
              exact R1_suffix_death ws1 h1 hn1 d hd wdr hwdr ws2 h2 ws3 h3 ws4 h4
                w (sub1 rest) hwe hwsub

theorem lit_fam_ws_head_death (L : List Char) (T : List PElem) (j : Nat) (hj : j < L.length)
    (hnw : isPySpace (L.get ⟨j, hj⟩) = false)
    (w0 : Char) (hw0 : isPySpace w0 = true) (ws0t v : List Char) :
    matchElems (.lit (L.drop j) :: T) ((w0 :: ws0t) ++ v) = none := by
  rw [List.drop_eq_getElem_cons hj, List.cons_append]
  apply lit_head_death
  intro he
  have hnw2 : isPySpace (L[j]) = false := hnw
  rw [he, hnw2] at hw0
  cases hw0

/-- No residual live state of the pattern 1 machine survives the text
of a pattern 2 replacement, whatever follows it: the replacement opens
with a nonempty whitespace run, then const, spaces, a word and a brace. -/
theorem death_R2 (q : List PElem) (hq : p1StateP q) (hqn : q ≠ [])
    (ws0 : List Char) (h0 : ws0.all isPySpace = true) (hn0 : ws0 ≠ [])
    (ws1 : List Char) (h1 : ws1.all isPySpace = true) (hn1 : ws1 ≠ [])
    (d : Char) (hd : isPyWord d = true) (wdr : List Char)
    (ws2 : List Char) (Y : List Char) :
    matchElems q (ws0 ++ ("const".toList ++ (ws1 ++ ((d :: wdr) ++ (ws2 ++ ('\x7b' :: Y)))))) = none := by
  rcases hq with h | h | h | h | h | h | h | h | h | h | ⟨j, hj, h⟩ | ⟨j, hj, h⟩ | ⟨j, hj, h⟩ | ⟨j, hj, h⟩
  · exact absurd h hqn
  · subst h
    rw [show p1T 1 = .ws1 :: p1T 2 from rfl]
    simp only [matchElems]
    have htk : (ws0 ++ ("const".toList ++ (ws1 ++ ((d :: wdr) ++ (ws2 ++ ('\x7b' :: Y)))))).takeWhile isPySpace = ws0 := by
      rw [takeWhile_append_all ws0 _ h0,
        show ("const".toList ++ (ws1 ++ ((d :: wdr) ++ (ws2 ++ ('\x7b' :: Y))))).takeWhile isPySpace = [] from takeWhile_head_neg 'c' _ (by decide),
        List.append_nil]
    have hdr : (ws0 ++ ("const".toList ++ (ws1 ++ ((d :: wdr) ++ (ws2 ++ ('\x7b' :: Y)))))).dropWhile isPySpace = "const".toList ++ (ws1 ++ ((d :: wdr) ++ (ws2 ++ ('\x7b' :: Y)))) := by
      rw [dropWhile_append_all ws0 _ h0]
      exact dropWhile_head_neg 'c' _ (by decide)
    have hE : ws0.isEmpty = false := by
      cases ws0
      · exact absurd rfl hn0
      · rfl
    rw [htk, hdr, if_neg (by simp [hE])]
    exact p1T2_death_const ws1 h1 hn1 d hd wdr _
  · subst h
    simp only [matchElems]
    have hdr : (ws0 ++ ("const".toList ++ (ws1 ++ ((d :: wdr) ++ (ws2 ++ ('\x7b' :: Y)))))).dropWhile isPySpace = "const".toList ++ (ws1 ++ ((d :: wdr) ++ (ws2 ++ ('\x7b' :: Y)))) := by
      rw [dropWhile_append_all ws0 _ h0]
      exact dropWhile_head_neg 'c' _ (by decide)
    rw [hdr]
    exact p1T2_death_const ws1 h1 hn1 d hd wdr _
  · subst h
    match ws0, hn0 with
    | w0 :: ws0t, _ =>
      have hw0 : isPySpace w0 = true := by
        simp only [List.all_cons, Bool.and_eq_true] at h0
        exact h0.1
      simp only [matchElems]
      rw [show (w0 :: ws0t) ++ ("const".toList ++ (ws1 ++ ((d :: wdr) ++ (ws2 ++ ('\x7b' :: Y)))))
          = w0 :: (ws0t ++ ("const".toList ++ (ws1 ++ ((d :: wdr) ++ (ws2 ++ ('\x7b' :: Y)))))) from rfl,
        dropWhile_head_neg w0 _ (ws_not_word w0 hw0)]
      exact ws_skip_lit_death '\x7b' [] (p1T 5) (w0 :: ws0t) h0 _ (by decide)
  · subst h
    rw [show p1T 3 = .ws0 :: .lit ('\x7b' :: []) :: p1T 5 from rfl]
    exact ws_skip_lit_death '\x7b' [] (p1T 5) ws0 h0 _ (by decide)
  · subst h
    rw [show p1T 5 = .ws0 :: .lit ('r' :: "equired String message".toList) :: p1T 7 from rfl]
    exact ws_skip_lit_death 'r' _ (p1T 7) ws0 h0 _ (by decide)
  · subst h
    rw [show p1T 7 = .ws0 :: .lit ('\x7d' :: []) :: p1T 9 from rfl]
    exact ws_skip_lit_death '\x7d' [] (p1T 9) ws0 h0 _ (by decide)
  · subst h
    rw [show p1T 9 = .ws0 :: .lit (':' :: []) :: p1T 11 from rfl]
    exact ws_skip_lit_death ':' [] (p1T 11) ws0 h0 _ (by decide)
  · subst h
    rw [show p1T 11 = .ws0 :: .lit ('s' :: "uper(message:".toList) :: p1T 13 from rfl]
    exact ws_skip_lit_death 's' _ (p1T 13) ws0 h0 _ (by decide)
  · subst h
    rw [show p1T 13 = .ws0 :: .lit ('m' :: "essage);".toList) :: p1T 15 from rfl]
    exact ws_skip_lit_death 'm' _ (p1T 15) ws0 h0 _ (by decide)
  · subst h
    match ws0, hn0 with
    | w0 :: ws0t, _ =>
      have hw0 : isPySpace w0 = true := by
        simp only [List.all_cons, Bool.and_eq_true] at h0
        exact h0.1
      have hnw : isPySpace (kConst.get ⟨j, hj⟩) = false := by
        have hall : ∀ i, (hi : i < kConst.length) → isPySpace (kConst.get ⟨i, hi⟩) = false := by decide
        exact hall j hj
      exact lit_fam_ws_head_death kConst (p1T 1) j hj hnw w0 hw0 ws0t _
  · subst h
    match ws0, hn0 with
    | w0 :: ws0t, _ =>
      have hw0 : isPySpace w0 = true := by
        simp only [List.all_cons, Bool.and_eq_true] at h0
        exact h0.1
      by_cases hsp : isPySpace (kLit23.get ⟨j, hj⟩) = true
      · have hj815 : j = 8 ∨ j = 15 := by
          have hdec : ∀ i, (hi : i < kLit23.length) → isPySpace (kLit23.get ⟨i, hi⟩) = true → i = 8 ∨ i = 15 := by decide
          exact hdec j hj hsp
        rcases hj815 with rfl | rfl
        · rw [show kLit23.drop 8 = ' ' :: 'S' :: "tring message".toList from rfl]
          exact lit_two_death ' ' 'S' _ (p1T 7) (by decide) (by decide) (w0 :: ws0t)
            ("const".toList ++ (ws1 ++ ((d :: wdr) ++ (ws2 ++ ('\x7b' :: Y))))) h0 (by simp) ⟨"onst".toList ++ (ws1 ++ ((d :: wdr) ++ (ws2 ++ ('\x7b' :: Y)))), rfl⟩
        · rw [show kLit23.drop 15 = ' ' :: 'm' :: "essage".toList from rfl]
          exact lit_two_death ' ' 'm' _ (p1T 7) (by decide) (by decide) (w0 :: ws0t)
            ("const".toList ++ (ws1 ++ ((d :: wdr) ++ (ws2 ++ ('\x7b' :: Y))))) h0 (by simp) ⟨"onst".toList ++ (ws1 ++ ((d :: wdr) ++ (ws2 ++ ('\x7b' :: Y)))), rfl⟩
      · have hnw : isPySpace (kLit23.get ⟨j, hj⟩) = false := by
          simpa using hsp
        exact lit_fam_ws_head_death kLit23 (p1T 7) j hj hnw w0 hw0 ws0t _
  · subst h
    match ws0, hn0 with
    | w0 :: ws0t, _ =>
      have hw0 : isPySpace w0 = true := by
        simp only [List.all_cons, Bool.and_eq_true] at h0
        exact h0.1
      have hnw : isPySpace (kLit14.get ⟨j, hj⟩) = false := by
        have hall : ∀ i, (hi : i < kLit14.length) → isPySpace (kLit14.get ⟨i, hi⟩) = false := by decide
        exact hall j hj
      exact lit_fam_ws_head_death kLit14 (p1T 13) j hj hnw w0 hw0 ws0t _
  · subst h
    match ws0, hn0 with
    | w0 :: ws0t, _ =>
      have hw0 : isPySpace w0 = true := by
        simp only [List.all_cons, Bool.and_eq_true] at h0
        exact h0.1
      have hnw : isPySpace (kLit9.get ⟨j, hj⟩) = false := by
        have hall : ∀ i, (hi : i < kLit9.length) → isPySpace (kLit9.get ⟨i, hi⟩) = false := by decide
        exact hall j hj
      exact lit_fam_ws_head_death kLit9 (p1T 15) j hj hnw w0 hw0 ws0t _

/-- Inversion of a successful pattern 2 match. -/
theorem matchP2At_some_inv (s repl rest : List Char)
    (h : matchP2At s = some (repl, rest)) :
    ∃ ws0 ws1 d wdr ws2 ws3 pre ws5 ws6 ws7,
      ws0.all isPySpace = true ∧ ws0 ≠ [] ∧
      ws1.all isPySpace = true ∧ ws1 ≠ [] ∧ isPyWord d = true ∧
      wdr.all isPyWord = true ∧ ws2.all isPySpace = true ∧ ws3.all isPySpace = true ∧
      (∀ x ∈ pre, ¬ x = '\x7d') ∧
      repl = ws0 ++ ("const".toList ++ (ws1 ++ ((d :: wdr) ++ (ws2 ++ ('\x7b' :: (ws3 ++ ("required super.message,".toList ++ (pre ++ ('\x7d' :: (';' :: [])))))))))) ∧
      s = ws0 ++ ("const".toList ++ (ws1 ++ ((d :: wdr) ++ (ws2 ++ ('\x7b' :: (ws3 ++ ("required String message,".toList ++ (pre ++ ('\x7d' :: (ws5 ++ (':' :: (ws6 ++ ("super(message:".toList ++ (ws7 ++ ("message);".toList ++ rest))))))))))))))) := by
  unfold matchP2At at h
  simp only [List.span_eq_take_drop] at h
  by_cases hg0 : (s.takeWhile isPySpace).isEmpty = true
  · rw [if_pos hg0] at h; cases h
  · rw [if_neg hg0] at h
    cases h1c : eatL "const".toList (s.dropWhile isPySpace) with
    | none => rw [h1c] at h; cases h
    | some r1 =>
    simp only [h1c] at h
    by_cases hg1 : (r1.takeWhile isPySpace).isEmpty = true
    · rw [if_pos hg1] at h; cases h
    · rw [if_neg hg1] at h
      by_cases hg2 : ((r1.dropWhile isPySpace).takeWhile isPyWord).isEmpty = true
      · rw [if_pos hg2] at h; cases h
      · rw [if_neg hg2] at h
        cases h3 : eatL ['\x7b'] (((r1.dropWhile isPySpace).dropWhile isPyWord).dropWhile isPySpace) with
        | none => rw [h3] at h; cases h
        | some r5 =>
        simp only [h3] at h
        by_cases hg3 : (r5.takeWhile isPySpace).contains '\n' = true
        · rw [if_pos hg3] at h
          cases h4 : eatL "required String message,".toList (r5.dropWhile isPySpace) with
          | none => rw [h4] at h; cases h
          | some r7 =>
          simp only [h4] at h
          cases h5 : eatL ['\x7d'] (r7.drop (r7.takeWhile (fun c => c ≠ '\x7d')).length) with
          | none => rw [h5] at h; cases h
          | some r9 =>
          simp only [h5] at h
          by_cases hg4 : p2Group2Ok (r7.takeWhile (fun c => c ≠ '\x7d')) = true
          · rw [if_pos hg4] at h
            cases h6 : eatL [':'] (r9.dropWhile isPySpace) with
            | none => rw [h6] at h; cases h
            | some r11 =>
            simp only [h6] at h
            cases h7 : eatL "super(message:".toList (r11.dropWhile isPySpace) with
            | none => rw [h7] at h; cases h
            | some r13 =>
            simp only [h7] at h
            cases h8 : eatL "message);".toList (r13.dropWhile isPySpace) with
            | none => rw [h8] at h; cases h
            | some r15 =>
            simp only [h8, Option.some.injEq, Prod.mk.injEq] at h
            obtain ⟨hrepl, hrest⟩ := h
            obtain ⟨d, wdr, hdw⟩ : ∃ d wdr, (r1.dropWhile isPySpace).takeWhile isPyWord = d :: wdr := by
              cases hq : (r1.dropWhile isPySpace).takeWhile isPyWord with
              | nil => exact absurd (by rw [hq]; rfl) hg2
              | cons d wdr => exact ⟨d, wdr, rfl⟩
            have hdall : (d :: wdr).all isPyWord = true := by
              rw [← hdw]; exact takeWhile_all _ _
            have hd : isPyWord d = true := by
              simp only [List.all_cons, Bool.and_eq_true] at hdall; exact hdall.1
            have hwdr : wdr.all isPyWord = true := by
              simp only [List.all_cons, Bool.and_eq_true] at hdall; exact hdall.2
            refine ⟨s.takeWhile isPySpace, r1.takeWhile isPySpace, d, wdr,
              ((r1.dropWhile isPySpace).dropWhile isPyWord).takeWhile isPySpace,
              r5.takeWhile isPySpace, r7.takeWhile (fun c => c ≠ '\x7d'),
              r9.takeWhile isPySpace, r11.takeWhile isPySpace, r13.takeWhile isPySpace,
              takeWhile_all _ _, ?_, takeWhile_all _ _, ?_, hd, hwdr,
              takeWhile_all _ _, takeWhile_all _ _, ?_, ?_, ?_⟩
            · intro he
              exact hg0 (by rw [he]; rfl)
            · intro he
              exact hg1 (by rw [he]; rfl)
            · intro x hx
              have hall := takeWhile_all (fun c => decide (c ≠ '\x7d')) r7
              have := List.all_eq_true.mp hall x hx
              exact of_decide_eq_true this
            · rw [← hrepl, hdw]
              simp [List.append_assoc]
            · set W0 := s.takeWhile isPySpace
              set D0 := s.dropWhile isPySpace
              set W1 := r1.takeWhile isPySpace
              set D1 := r1.dropWhile isPySpace
              set W2 := D1.takeWhile isPyWord
              set D2 := D1.dropWhile isPyWord
              set W3 := D2.takeWhile isPySpace
              set D3 := D2.dropWhile isPySpace
              set W4 := r5.takeWhile isPySpace
              set D4 := r5.dropWhile isPySpace
              set P := r7.takeWhile (fun c => c ≠ '\x7d')
              set R8 := r7.drop P.length
              set W6 := r9.takeWhile isPySpace
              set D6 := r9.dropWhile isPySpace
              set W7 := r11.takeWhile isPySpace
              set D7 := r11.dropWhile isPySpace
              set W8 := r13.takeWhile isPySpace
              set D8 := r13.dropWhile isPySpace
              have e0 : s = W0 ++ D0 := (List.takeWhile_append_dropWhile _ _).symm
              have e0b : D0 = "const".toList ++ r1 := eatL_some_decomp _ _ _ h1c
              have e1 : r1 = W1 ++ D1 := (List.takeWhile_append_dropWhile _ _).symm
              have e2 : D1 = W2 ++ D2 := (List.takeWhile_append_dropWhile _ _).symm
              have e3 : D2 = W3 ++ D3 := (List.takeWhile_append_dropWhile _ _).symm
              have e4 : D3 = ['\x7b'] ++ r5 := eatL_some_decomp _ _ _ h3
              have e5 : r5 = W4 ++ D4 := (List.takeWhile_append_dropWhile _ _).symm
              have e6 : D4 = "required String message,".toList ++ r7 := eatL_some_decomp _ _ _ h4
              have e7 : r7 = P ++ R8 := by
                obtain ⟨t8, ht8⟩ := List.takeWhile_prefix (l := r7) (p := fun c => decide (c ≠ '\x7d'))
                have hR8 : R8 = t8 := by
                  show r7.drop P.length = t8
                  rw [← ht8, List.drop_left]
                rw [hR8]
                exact ht8.symm
              have e8 : R8 = ['\x7d'] ++ r9 := eatL_some_decomp _ _ _ h5
              have e9 : r9 = W6 ++ D6 := (List.takeWhile_append_dropWhile _ _).symm
              have e10 : D6 = [':'] ++ r11 := eatL_some_decomp _ _ _ h6
              have e11 : r11 = W7 ++ D7 := (List.takeWhile_append_dropWhile _ _).symm
              have e12 : D7 = "super(message:".toList ++ r13 := eatL_some_decomp _ _ _ h7
              have e13 : r13 = W8 ++ D8 := (List.takeWhile_append_dropWhile _ _).symm
              have e14 : D8 = "message);".toList ++ rest := by
                rw [← hrest]; exact eatL_some_decomp _ _ _ h8
              rw [e0, e0b, e1, e2, hdw, e3, e4, e5, e6, e7, e8, e9, e10, e11, e12, e13, e14]
              simp [List.append_assoc]
          · rw [if_neg hg4] at h; cases h
        · rw [if_neg hg3] at h; cases h

theorem matchP2At_consume (s repl rest : List Char)
    (h : matchP2At s = some (repl, rest)) : rest.length < s.length := by
  obtain ⟨ws0, ws1, d, wdr, ws2, ws3, pre, ws5, ws6, ws7,
    _, _, _, _, _, _, _, _, _, _, hs⟩ := matchP2At_some_inv s repl rest h
  rw [hs]
  simp only [List.length_append, List.length_cons]
  omega

theorem sub2_cons_none (c : Char) (t : List Char) (h : matchP2At (c :: t) = none) :
    sub2 (c :: t) = c :: sub2 t := by
  simp only [sub2, applySub, List.length_cons, scanSub, h]

theorem sub2_cons_some (c : Char) (t repl rest : List Char)
    (h : matchP2At (c :: t) = some (repl, rest)) :
    sub2 (c :: t) = repl ++ sub2 rest := by
  have hr : rest.length ≤ t.length := by
    have := matchP2At_consume (c :: t) repl rest h
    simp only [List.length_cons] at this
    omega
  have hcons : ∀ c2 t2 r2 rest2, matchP2At (c2 :: t2) = some (r2, rest2) → rest2.length ≤ t2.length := by
    intro c2 t2 r2 rest2 h2
    have := matchP2At_consume (c2 :: t2) r2 rest2 h2
    simp only [List.length_cons] at this
    omega
  simp only [sub2, applySub, List.length_cons, scanSub, h]
  rw [scanSub_fuel matchP2At hcons t.length rest hr]

/-- Transport of a live pattern 1 machine state across substitution 2:
a residual state that accepts the rewritten text accepted the original
text. -/
theorem T2_transport : ∀ n (s : List Char), s.length ≤ n →
    ∀ q, p1StateP q → acceptE q (sub2 s) = true → acceptE q s = true := by
  intro n
  induction n using Nat.strong_induction_on with
  | _ n ih =>
    intro s hs q hq hacc
    cases n with
    | zero =>
      cases s with
      | nil => exact hacc
      | cons c t => simp at hs
    | succ k =>
      cases s with
      | nil => exact hacc
      | cons c t =>
        have hts : t.length ≤ k := by simpa using hs
        cases hmc : matchP2At (c :: t) with
        | none =>
          rw [sub2_cons_none c t hmc, acceptE_cons] at hacc
          rw [acceptE_cons]
          rcases Bool.or_eq_true_iff.mp hacc with hn | hstep
          · rw [hn]; rfl
          · cases hq2 : stepE q c with
            | none => rw [hq2] at hstep; cases hstep
            | some q2 =>
              rw [hq2] at hstep
              have hstep2 : acceptE q2 (sub2 t) = true := hstep
              have hq2P : p1StateP q2 := p1StateP_step q c q2 hq hq2
              have hQ : acceptE q2 t = true := ih k (Nat.lt_succ_self k) t hts q2 hq2P hstep2
              show (nullE q || acceptE q2 t) = true
              rw [hQ]
              simp
        | some pr =>
          obtain ⟨repl, rest⟩ := pr
          by_cases hqn : q = []
          · subst hqn
            rfl
          · obtain ⟨ws0, ws1, d, wdr, ws2, ws3, pre, ws5, ws6, ws7,
              h0, hn0, h1, hn1, hd, hwdr, h2, h3, hpall, hrepl, hstext⟩ :=
              matchP2At_some_inv (c :: t) repl rest hmc
            rw [sub2_cons_some c t repl rest hmc] at hacc
            have hdeath : matchElems q (repl ++ sub2 rest) = none := by
              rw [hrepl]
              have := death_R2 q hq hqn ws0 h0 hn0 ws1 h1 hn1 d hd wdr ws2
                ((ws3 ++ ("required super.message,".toList ++ (pre ++ ('\x7d' :: (';' :: []))))) ++ sub2 rest)
              rw [show (ws0 ++ ("const".toList ++ (ws1 ++ ((d :: wdr) ++ (ws2 ++ ('\x7b' :: (ws3 ++ ("required super.message,".toList ++ (pre ++ ('\x7d' :: (';' :: []))))))))))) ++ sub2 rest
                  = ws0 ++ ("const".toList ++ (ws1 ++ ((d :: wdr) ++ (ws2 ++ ('\x7b' :: ((ws3 ++ ("required super.message,".toList ++ (pre ++ ('\x7d' :: (';' :: []))))) ++ sub2 rest)))))) by
                simp [List.append_assoc]]
              exact this
            rw [matchElems_none_accept q _ hdeath] at hacc
            cases hacc

/-- States of the pattern 1 machine that still owe the closing brace
literal: the machine cannot finish without consuming a brace. -/
def pendP (q : List PElem) : Prop :=
  q = p1T 1 ∨ q = .ws0 :: p1T 2 ∨ q = .wd0 :: p1T 3 ∨ q = p1T 3 ∨ q = p1T 5 ∨ q = p1T 7
    ∨ (∃ j, j < kConst.length ∧ q = .lit (kConst.drop j) :: p1T 1)
    ∨ (∃ j, j < kLit23.length ∧ q = .lit (kLit23.drop j) :: p1T 7)

theorem pd_T1 : pendP (p1T 1) := Or.inl rfl

theorem pd_ws2 : pendP (.ws0 :: p1T 2) := Or.inr (Or.inl rfl)

theorem pd_wd3 : pendP (.wd0 :: p1T 3) := Or.inr (Or.inr (Or.inl rfl))

theorem pd_T3 : pendP (p1T 3) := Or.inr (Or.inr (Or.inr (Or.inl rfl)))

theorem pd_T5 : pendP (p1T 5) := Or.inr (Or.inr (Or.inr (Or.inr (Or.inl rfl))))

theorem pd_T7 : pendP (p1T 7) := Or.inr (Or.inr (Or.inr (Or.inr (Or.inr (Or.inl rfl)))))

theorem pd_const (j : Nat) (hj : j < kConst.length) :
    pendP (.lit (kConst.drop j) :: p1T 1) :=
  Or.inr (Or.inr (Or.inr (Or.inr (Or.inr (Or.inr (Or.inl ⟨j, hj, rfl⟩))))))

theorem pd_lit23 (j : Nat) (hj : j < kLit23.length) :
    pendP (.lit (kLit23.drop j) :: p1T 7) :=
  Or.inr (Or.inr (Or.inr (Or.inr (Or.inr (Or.inr (Or.inr ⟨j, hj, rfl⟩))))))

theorem pendP_nullE (q : List PElem) (hq : pendP q) : nullE q = false := by
  rcases hq with rfl | rfl | rfl | rfl | rfl | rfl | ⟨j, hj, rfl⟩ | ⟨j, hj, rfl⟩
  · decide
  · decide
  · decide
  · decide
  · decide
  · decide
  · rw [List.drop_eq_getElem_cons hj]; rfl
  · rw [List.drop_eq_getElem_cons hj]; rfl

theorem pend_closure_lit (l : List Char) (T : List PElem)
    (stT : pendP (normE (.lit [] :: T)))
    (stfam : ∀ j2, j2 < l.length → pendP (.lit (l.drop j2) :: T))
    (j : Nat) (hj : j < l.length) (c : Char) (q2 : List PElem)
    (h : stepE (.lit (l.drop j) :: T) c = some q2) : pendP q2 := by
  have hq2 := stepE_lit_suffix l T j hj c q2 h
  by_cases hj2 : j + 1 < l.length
  · have e : normE (.lit (l.drop (j + 1)) :: T) = .lit (l.drop (j + 1)) :: T := by
      rw [List.drop_eq_getElem_cons hj2]; rfl
    rw [hq2, e]
    exact stfam (j + 1) hj2
  · have hj3 : l.drop (j + 1) = [] := List.drop_eq_nil_of_le (by omega)
    rw [hq2, hj3]
    exact stT

/-- The pending states are closed under any step that does not consume
a closing brace. -/
theorem pendP_step (q : List PElem) (c : Char) (q2 : List PElem)
    (hq : pendP q) (hc : ¬ c = '\x7d') (h : stepE q c = some q2) : pendP q2 := by
  rcases hq with rfl | rfl | rfl | rfl | rfl | rfl | ⟨j, hj, rfl⟩ | ⟨j, hj, rfl⟩
  · rw [show p1T 1 = .ws1 :: p1T 2 from rfl] at h
    simp only [stepE] at h
    split_ifs at h
    · exact Option.some.inj h ▸ pd_ws2
  · rw [show p1T 2 = .wd1 :: p1T 3 from rfl] at h
    simp only [stepE] at h
    split_ifs at h
    · exact Option.some.inj h ▸ pd_ws2
    · exact Option.some.inj h ▸ pd_wd3
  · rw [show p1T 3 = .ws0 :: .lit ['\x7b'] :: p1T 5 from rfl] at h
    simp only [stepE] at h
    split_ifs at h
    · exact Option.some.inj h ▸ pd_wd3
    · exact Option.some.inj h ▸ pd_T3
    · exact Option.some.inj h ▸ (show pendP (normE (.lit [] :: p1T 5)) from pd_T5)
  · rw [show p1T 3 = .ws0 :: .lit ['\x7b'] :: p1T 5 from rfl] at h
    simp only [stepE] at h
    split_ifs at h
    · exact Option.some.inj h ▸ pd_T3
    · exact Option.some.inj h ▸ (show pendP (normE (.lit [] :: p1T 5)) from pd_T5)
  · rw [show p1T 5 = .ws0 :: .lit kLit23 :: p1T 7 from rfl,
      show kLit23 = 'r' :: kLit23.drop 1 from rfl] at h
    simp only [stepE] at h
    split_ifs at h
    · exact Option.some.inj h ▸ pd_T5
    · exact Option.some.inj h ▸
        (show pendP (normE (.lit (kLit23.drop 1) :: p1T 7)) from pd_lit23 1 (by decide))
  · rw [show p1T 7 = .ws0 :: .lit ['\x7d'] :: p1T 9 from rfl] at h
    simp only [stepE] at h
    split_ifs at h
    · exact Option.some.inj h ▸ pd_T7
  · exact pend_closure_lit kConst (p1T 1) pd_T1 pd_const j hj c q2 h
  · exact pend_closure_lit kLit23 (p1T 7) pd_T7 pd_lit23 j hj c q2 h

/-- From a pending state, consuming a closing brace either kills the
machine or moves it to the state right after the brace literal. -/
theorem pendP_brace (q : List PElem) (hq : pendP q) (q2 : List PElem)
    (h : stepE q '\x7d' = some q2) : q2 = p1T 9 := by
  rcases hq with rfl | rfl | rfl | rfl | rfl | rfl | ⟨j, hj, rfl⟩ | ⟨j, hj, rfl⟩
  · rw [show stepE (p1T 1) '\x7d' = none from by decide] at h
    cases h
  · rw [show stepE (.ws0 :: p1T 2) '\x7d' = none from by decide] at h
    cases h
  · rw [show stepE (.wd0 :: p1T 3) '\x7d' = none from by decide] at h
    cases h
  · rw [show stepE (p1T 3) '\x7d' = none from by decide] at h
    cases h
  · rw [show stepE (p1T 5) '\x7d' = none from by decide] at h
    cases h
  · rw [show stepE (p1T 7) '\x7d' = some (p1T 9) from by decide] at h
    exact (Option.some.inj h).symm
  · rw [List.drop_eq_getElem_cons hj] at h
    simp only [stepE] at h
    rw [if_neg ?hne] at h
    · cases h
    case hne =>
      have hall : ∀ i, (hi : i < kConst.length) → ¬ ('\x7d' = kConst.get ⟨i, hi⟩) := by decide
      exact hall j hj
  · rw [List.drop_eq_getElem_cons hj] at h
    simp only [stepE] at h
    rw [if_neg ?hne2] at h
    · cases h
    case hne2 =>
      have hall : ∀ i, (hi : i < kLit23.length) → ¬ ('\x7d' = kLit23.get ⟨i, hi⟩) := by decide
      exact hall j hj

/-- Scanning a brace-free run followed by a brace and a semicolon kills
every pending state: the text after the brace starts with a semicolon
where the pattern requires a colon. -/
theorem pre_run_death : ∀ (u : List Char), (∀ x ∈ u, ¬ x = '\x7d') →
    ∀ (X : List Char) (q : List PElem), pendP q →
      acceptE q (u ++ ('\x7d' :: (';' :: X))) = false := by
  intro u
  induction u with
  | nil =>
    intro _ X q hq
    rw [List.nil_append, acceptE_cons, pendP_nullE q hq]
    cases hbr : stepE q '\x7d' with
    | none => rfl
    | some q2 =>
      have hq2 := pendP_brace q hq q2 hbr
      subst hq2
      show (false || acceptE (p1T 9) (';' :: X)) = false
      rw [acceptE_cons, show nullE (p1T 9) = false from by decide,
        show stepE (p1T 9) ';' = none from by decide]
      rfl
  | cons u0 u1 ih =>
    intro hu X q hq
    rw [List.cons_append, acceptE_cons, pendP_nullE q hq]
    have hu0 : ¬ u0 = '\x7d' := hu u0 (by simp)
    cases hst : stepE q u0 with
    | none => rfl
    | some q2 =>
      have hq2 : pendP q2 := pendP_step q u0 q2 hq hu0 hst
      have hrec := ih (fun x hx => hu x (by simp [hx])) X q2 hq2
      show (false || acceptE q2 (u1 ++ ('\x7d' :: (';' :: X)))) = false
      rw [hrec]
      rfl

/-- A match of pattern 1 cannot start at any nonempty suffix of a
pattern 2 replacement, whatever text follows the replacement. -/
theorem R2_suffix_death (ws0 : List Char) (h0 : ws0.all isPySpace = true)
    (ws1 : List Char) (h1 : ws1.all isPySpace = true) (hn1 : ws1 ≠ [])
    (d : Char) (hd : isPyWord d = true) (wdr : List Char) (hwdr : wdr.all isPyWord = true)
    (ws2 : List Char) (h2 : ws2.all isPySpace = true)
    (ws3 : List Char) (h3 : ws3.all isPySpace = true)
    (pre : List Char) (hpall : ∀ x ∈ pre, ¬ x = '\x7d')
    (w X : List Char) (hwne : w ≠ [])
    (hw : w <:+ ws0 ++ ("const".toList ++ (ws1 ++ ((d :: wdr) ++ (ws2 ++ ('\x7b' :: (ws3 ++ ("required super.message,".toList ++ (pre ++ ('\x7d' :: (';' :: []))))))))))) :
    matchElems p1Elems (w ++ X) = none := by
  have hsplit : "required super.message,".toList
      = "required super.message".toList ++ (',' :: []) := by decide
  have f10 : ∀ w2 X2 : List Char, w2 <:+ (';' :: []) → w2 ≠ [] →
      matchElems p1Elems (w2 ++ X2) = none := by
    intro w2 X2 hsuf hne
    rcases List.suffix_cons_iff.mp hsuf with he | he
    · rw [he, List.cons_append]
      exact start_death_head ';' _ (by decide)
    · have h9 : w2 = [] := by simpa using he
      exact absurd h9 hne
  have f9 : ∀ w2 X2 : List Char, w2 <:+ ('\x7d' :: (';' :: [])) → w2 ≠ [] →
      matchElems p1Elems (w2 ++ X2) = none := by
    intro w2 X2 hsuf hne
    rcases List.suffix_cons_iff.mp hsuf with he | he
    · rw [he, List.cons_append]
      exact start_death_head '\x7d' _ (by decide)
    · exact f10 w2 X2 he hne
  have f8 : ∀ w2 X2 : List Char, w2 <:+ (pre ++ ('\x7d' :: (';' :: []))) → w2 ≠ [] →
      matchElems p1Elems (w2 ++ X2) = none := by
    intro w2 X2 hsuf hne
    rcases suffix_split w2 _ _ hsuf with he | ⟨w1, hw1, heq⟩
    · exact f9 w2 X2 he hne
    · by_cases hne1 : w1 = []
      · subst hne1
        rw [heq, List.nil_append]
        exact f9 _ X2 (List.suffix_refl _) (by simp)
      · rw [heq, show (w1 ++ ('\x7d' :: (';' :: []))) ++ X2 = w1 ++ ('\x7d' :: (';' :: X2)) from by
          simp [List.append_assoc]]
        apply accept_false_none
        exact pre_run_death w1 (fun x hx => hpall x (hw1.subset hx)) X2 p1Elems
          (show pendP p1Elems from pd_const 0 (by decide))
  have f7 : ∀ w2 X2 : List Char, w2 <:+ ("required super.message,".toList ++ (pre ++ ('\x7d' :: (';' :: [])))) → w2 ≠ [] →
      matchElems p1Elems (w2 ++ X2) = none := by
    intro w2 X2 hsuf hne
    rcases suffix_split w2 _ _ hsuf with he | ⟨w1, hw1, heq⟩
    · exact f8 w2 X2 he hne
    · by_cases hne1 : w1 = []
      · subst hne1
        rw [heq, List.nil_append]
        exact f8 _ X2 (List.suffix_refl _) (by simp)
      · rw [heq]
        have hclit : ∀ i, (hi : i < ("required super.message,".toList).length) →
            ¬ ("required super.message,".toList).get ⟨i, hi⟩ = 'c' := by decide
        exact lit_run_suffix_death _ hclit w1 _ X2 hw1 hne1
  have f6 : ∀ w2 X2 : List Char, w2 <:+ (ws3 ++ ("required super.message,".toList ++ (pre ++ ('\x7d' :: (';' :: []))))) → w2 ≠ [] →
      matchElems p1Elems (w2 ++ X2) = none := by
    intro w2 X2 hsuf hne
    rcases suffix_split w2 _ _ hsuf with he | ⟨w1, hw1, heq⟩
    · exact f7 w2 X2 he hne
    · by_cases hne1 : w1 = []
      · subst hne1
        rw [heq, List.nil_append]
        exact f7 _ X2 (List.suffix_refl _) (by simp)
      · rw [heq]
        exact ws_run_suffix_death w1 (all_of_suffix _ _ _ hw1 h3) _ X2 hne1
  have f5 : ∀ w2 X2 : List Char, w2 <:+ ('\x7b' :: (ws3 ++ ("required super.message,".toList ++ (pre ++ ('\x7d' :: (';' :: [])))))) → w2 ≠ [] →
      matchElems p1Elems (w2 ++ X2) = none := by
    intro w2 X2 hsuf hne
    rcases List.suffix_cons_iff.mp hsuf with he | he
    · rw [he, List.cons_append]
      exact start_death_head '\x7b' _ (by decide)
    · exact f6 w2 X2 he hne
  have f4 : ∀ w2 X2 : List Char, w2 <:+ (ws2 ++ ('\x7b' :: (ws3 ++ ("required super.message,".toList ++ (pre ++ ('\x7d' :: (';' :: []))))))) → w2 ≠ [] →
      matchElems p1Elems (w2 ++ X2) = none := by
    intro w2 X2 hsuf hne
    rcases suffix_split w2 _ _ hsuf with he | ⟨w1, hw1, heq⟩
    · exact f5 w2 X2 he hne
    · by_cases hne1 : w1 = []
      · subst hne1
        rw [heq, List.nil_append]
        exact f5 _ X2 (List.suffix_refl _) (by simp)
      · rw [heq]
        exact ws_run_suffix_death w1 (all_of_suffix _ _ _ hw1 h2) _ X2 hne1
  have f3 : ∀ w2 X2 : List Char, w2 <:+ ((d :: wdr) ++ (ws2 ++ ('\x7b' :: (ws3 ++ ("required super.message,".toList ++ (pre ++ ('\x7d' :: (';' :: [])))))))) → w2 ≠ [] →
      matchElems p1Elems (w2 ++ X2) = none := by
    intro w2 X2 hsuf hne
    rcases suffix_split w2 _ _ hsuf with he | ⟨w1, hw1, heq⟩
    · exact f4 w2 X2 he hne
    · by_cases hne1 : w1 = []
      · subst hne1
        rw [heq, List.nil_append]
        exact f4 _ X2 (List.suffix_refl _) (by simp [hn1])
      · have hallw : w1.all isPyWord = true := by
          refine all_of_suffix _ _ _ hw1 ?_
          simp [List.all_cons, hd, hwdr]
        rw [heq, show (w1 ++ (ws2 ++ ('\x7b' :: (ws3 ++ ("required super.message,".toList ++ (pre ++ ('\x7d' :: (';' :: [])))))))) ++ X2
            = w1 ++ (ws2 ++ ('\x7b' :: ((ws3 ++ ("required super.message,".toList ++ (pre ++ ('\x7d' :: (';' :: []))))) ++ X2))) from by simp [List.append_assoc]]
        exact wdRegion_death w1 hallw ws2 h2 _
  have f2 : ∀ w2 X2 : List Char, w2 <:+ (ws1 ++ ((d :: wdr) ++ (ws2 ++ ('\x7b' :: (ws3 ++ ("required super.message,".toList ++ (pre ++ ('\x7d' :: (';' :: []))))))))) → w2 ≠ [] →
      matchElems p1Elems (w2 ++ X2) = none := by
    intro w2 X2 hsuf hne
    rcases suffix_split w2 _ _ hsuf with he | ⟨w1, hw1, heq⟩
    · exact f3 w2 X2 he hne
    · by_cases hne1 : w1 = []
      · subst hne1
        rw [heq, List.nil_append]
        exact f3 _ X2 (List.suffix_refl _) (by simp)
      · rw [heq]
        exact ws_run_suffix_death w1 (all_of_suffix _ _ _ hw1 h1) _ X2 hne1
  have f1 : ∀ w2 X2 : List Char, w2 <:+ ("const".toList ++ (ws1 ++ ((d :: wdr) ++ (ws2 ++ ('\x7b' :: (ws3 ++ ("required super.message,".toList ++ (pre ++ ('\x7d' :: (';' :: [])))))))))) → w2 ≠ [] →
      matchElems p1Elems (w2 ++ X2) = none := by
    intro w2 X2 hsuf hne
    rcases suffix_split w2 _ _ hsuf with he | ⟨w1, hw1, heq⟩
    · exact f2 w2 X2 he hne
    · by_cases hne1 : w1 = []
      · subst hne1
        rw [heq, List.nil_append]
        exact f2 _ X2 (List.suffix_refl _) (fun hc => hn1 (List.append_eq_nil.mp hc).1)
      · obtain ⟨k, hk, hkeq⟩ := suffix_eq_drop w1 _ hw1 hne1
        by_cases hk0 : k = 0
        · subst hk0
          rw [heq, hkeq, List.drop_zero]
          rw [show ("const".toList ++ (ws1 ++ ((d :: wdr) ++ (ws2 ++ ('\x7b' :: (ws3 ++ ("required super.message,".toList ++ (pre ++ ('\x7d' :: (';' :: [])))))))))) ++ X2
              = "const".toList ++ (ws1 ++ ((d :: wdr) ++ (ws2 ++ ('\x7b' :: (ws3 ++ ("required super.message".toList ++ (',' :: (pre ++ ('\x7d' :: (';' :: X2)))))))))) from by
            simp [hsplit, List.append_assoc]]
          exact p1Full_death_R1 ws1 h1 hn1 d hd wdr hwdr ws2 h2 ws3 h3 _
        · have hkpos : 0 < k := Nat.pos_of_ne_zero hk0
          have hkc : k < kConst.length := hk
          rw [heq, hkeq, show "const".toList = kConst from rfl,
            List.drop_eq_getElem_cons hkc, List.cons_append, List.cons_append]
          apply start_death_head
          have hall : ∀ i, (hi : i < kConst.length) → 0 < i → ¬ (kConst.get ⟨i, hi⟩ = 'c') := by decide
          exact hall k hkc hkpos
  rcases suffix_split w ws0 _ hw with he | ⟨w1, hw1, heq⟩
  · exact f1 w X he hwne
  · by_cases hne1 : w1 = []
    · subst hne1
      rw [heq, List.nil_append]
      exact f1 _ X (List.suffix_refl _) (by simp)
    · rw [heq]
      exact ws_run_suffix_death w1 (all_of_suffix _ _ _ hw1 h0) _ X hne1

/-- Substitution 2 preserves freedom from pattern 1: if no suffix of
the input is accepted by the pattern 1 machine, the same holds for the
output of substitution 2. -/
theorem N2_noP1_sub2 : ∀ n (s : List Char), s.length ≤ n →
    (∀ v, v <:+ s → acceptE p1Elems v = false) →
    ∀ v, v <:+ sub2 s → acceptE p1Elems v = false := by
  intro n
  induction n using Nat.strong_induction_on with
  | _ n ih =>
    intro s hs hfree v hv
    cases n with
    | zero =>
      cases s with
      | nil =>
        have hv2 : v = [] := by simpa [sub2, applySub, scanSub] using hv
        rw [hv2]
        decide
      | cons c t => simp at hs
    | succ k =>
      cases s with
      | nil =>
        have hv2 : v = [] := by simpa [sub2, applySub, scanSub] using hv
        rw [hv2]
        decide
      | cons c t =>
        have hts : t.length ≤ k := by simpa using hs
        cases hmc : matchP2At (c :: t) with
        | none =>
          rw [sub2_cons_none c t hmc] at hv
          rcases List.suffix_cons_iff.mp hv with he | he
          · subst he
            cases hacc : acceptE p1Elems (c :: sub2 t) with
            | false => rfl
            | true =>
              exfalso
              rw [acceptE_cons] at hacc
              rcases Bool.or_eq_true_iff.mp hacc with hn | hstep
              · exact absurd hn (by decide)
              · cases hq2 : stepE p1Elems c with
                | none => rw [hq2] at hstep; cases hstep
                | some q2 =>
                  rw [hq2] at hstep
                  have hstep2 : acceptE q2 (sub2 t) = true := hstep
                  have hq2P : p1StateP q2 := p1StateP_step p1Elems c q2 p1Elems_state hq2
                  have hQ : acceptE q2 t = true :=
                    T2_transport t.length t (le_refl _) q2 hq2P hstep2
                  have hfull : acceptE p1Elems (c :: t) = true := by
                    rw [acceptE_cons, hq2]
                    show (nullE p1Elems || acceptE q2 t) = true
                    rw [hQ]
                    simp
                  rw [hfree (c :: t) (List.suffix_refl _)] at hfull
                  cases hfull
          · exact ih k (Nat.lt_succ_self k) t hts
              (fun v2 hv2 => hfree v2 (hv2.trans ⟨[c], rfl⟩)) v he
        | some pr =>
          obtain ⟨repl, rest⟩ := pr
          obtain ⟨ws0, ws1, d, wdr, ws2, ws3, pre, ws5, ws6, ws7,
            h0, hn0, h1, hn1, hd, hwdr, h2, h3, hpall, hrepl, hstext⟩ :=
            matchP2At_some_inv (c :: t) repl rest hmc
          rw [sub2_cons_some c t repl rest hmc] at hv
          have hrl : rest.length ≤ k := by
            have := matchP2At_consume (c :: t) repl rest hmc
            simp only [List.length_cons] at this
            omega
          have hrestsuf : rest <:+ c :: t := by
            refine ⟨ws0 ++ ("const".toList ++ (ws1 ++ ((d :: wdr) ++ (ws2 ++ ('\x7b' :: (ws3 ++ ("required String message,".toList ++ (pre ++ ('\x7d' :: (ws5 ++ (':' :: (ws6 ++ ("super(message:".toList ++ (ws7 ++ "message);".toList)))))))))))))), ?_⟩
            rw [hstext]
            simp [List.append_assoc]
          have hfree2 : ∀ v2, v2 <:+ rest → acceptE p1Elems v2 = false :=
            fun v2 hv2 => hfree v2 (hv2.trans hrestsuf)
          rcases suffix_split v repl (sub2 rest) hv with he | ⟨w, hwsub, heq⟩
          · exact ih k (Nat.lt_succ_self k) rest hrl hfree2 v he
          · by_cases hwe : w = []
            · subst hwe
              rw [List.nil_append] at heq
              rw [heq]
              exact ih k (Nat.lt_succ_self k) rest hrl hfree2 _ (List.suffix_refl _)
            · rw [heq]
              apply matchElems_none_accept
              rw [hrepl] at hwsub
              exact R2_suffix_death ws0 h0 ws1 h1 hn1 d hd wdr hwdr ws2 h2 ws3 h3
                pre hpall w (sub2 rest) hwe hwsub

/-- A text none of whose suffixes is accepted by the pattern 1 machine
is left unchanged by the pattern 1 substitution. -/
theorem noP1_applySub_id : ∀ (y : List Char),
    (∀ v, v <:+ y → acceptE p1Elems v = false) → applySub matchP1At y = y := by
  intro y
  induction y with
  | nil => intro _; rfl
  | cons c t ih =>
    intro hno
    cases hmc : matchP1At (c :: t) with
    | some pr =>
      exfalso
      have hacc : acceptE p1Elems (c :: t) = false := hno (c :: t) (List.suffix_refl _)
      have hnone := accept_false_none _ _ hacc
      rw [(matchP1At_none_iff (c :: t)).mpr hnone] at hmc
      cases hmc
    | none =>
      have hstep : applySub matchP1At (c :: t) = c :: applySub matchP1At t := by
        simp only [applySub, List.length_cons, scanSub, hmc]
      rw [hstep, ih (fun v hv => hno v (hv.trans ⟨[c], rfl⟩))]

/-- C8: the third substitution pattern of fix_super_parameters_in_file
is redundant.  For every input text, running pattern 1, then pattern 2,
then pattern 3 (which is character for character the regex of pattern
1) produces exactly the output of patterns 1 and 2 alone: after the
first two passes no pattern 1 match remains anywhere, so the third
pass never fires. -/
theorem third_super_pattern_redundant (c : List Char) :
    fixSuperTransform c = sub2 (sub1 c) := by
  have hA : ∀ v, v <:+ sub1 c → acceptE p1Elems v = false :=
    fun v hv => N1_noP1_sub1 c.length c (le_refl _) v hv
  have hB : ∀ v, v <:+ sub2 (sub1 c) → acceptE p1Elems v = false :=
    fun v hv => N2_noP1_sub2 (sub1 c).length (sub1 c) (le_refl _) hA v hv
  show applySub matchP1At (sub2 (sub1 c)) = sub2 (sub1 c)
  exact noP1_applySub_id _ hB
